import Mathlib

/-!
Verification of the hash-table engine of the Football-League-Game repository.

This file shallowly embeds the two hash tables of the repository:

* `LazyDoubleTable` (src/lazy_double_table.py): an open-addressing table with
  double hashing and lazy deletion.  Python `None` slots are `Slot.empty`,
  the `DeletedItem` class marker is `Slot.deleted`, and a stored
  `(key, value)` tuple is `Slot.occupied`.  Machine behaviour notes:
  Python integers are unbounded, so all arithmetic is plain `Nat`
  arithmetic; the load-factor comparison `length + 1 > table_size * 2 / 3`
  uses Python float division, which for the table sizes in use decides
  exactly the rational comparison, embedded as `3 * (length + 1) > 2 * table_size`.
  The `while` loop of `hash2` and the recursion `__setitem__` → `__rehash` →
  `__setitem__` are embedded with explicit fuel; the fuel chosen
  (`table_size` for the coprimality loop, `sizes.length` for the rehash
  nesting) is sufficient for every state the proofs below consider, which
  is proved where a claim depends on it.
* `HashyDateTable.hash` (src/hashy_date_table.py): the date-specialised
  primary hash.  Python exceptions (`IndexError` on `key[4]`,
  `ValueError` from `int(...)`, `ZeroDivisionError` on `% 0`,
  `KeyError` / `RuntimeError` in the probe) become `Except` errors.
  `int(...)` is modelled for non-negative digit strings, failing on
  anything else; this only strengthens failure on the malformed inputs
  the claims consider.  The final hash arithmetic is over `Int` with
  Euclidean `%`, which agrees with Python `%` for positive moduli.
-/

namespace LazyDoubleTable

/-- A slot of the backing array: Python `None`, the `DeletedItem` class
marker, or a stored `(key, value)` tuple. -/
inductive Slot (V : Type) where
  | empty : Slot V
  | deleted : Slot V
  | occupied (key : String) (value : V) : Slot V
deriving DecidableEq, Repr

/-- The state of a `LazyDoubleTable`: the `TABLE_SIZES` tuple (a constructor
parameter, defaulting to `TABLE_SIZES` below), `__size_index`, the backing
array `__array` and the live count `__length`. -/
structure Table (V : Type) where
  sizes : List Nat
  sizeIndex : Nat
  array : List (Slot V)
  length : Nat
deriving DecidableEq, Repr

/-- The default `TABLE_SIZES` class constant. -/
def TABLE_SIZES : List Nat :=
  [5, 13, 29, 53, 97, 193, 389, 769, 1543, 3079, 6151, 12289, 24593,
   49157, 98317, 196613, 393241, 786433, 1572869]

/-- `table_size` property: the length of the backing array. -/
def tableSize {V : Type} (t : Table V) : Nat := t.array.length

/-- The table produced by `__init__` with the default sizes: size index 0,
a fresh array of `TABLE_SIZES[0] = 5` empty slots, length 0. -/
def initial (V : Type) : Table V :=
  ⟨TABLE_SIZES, 0, List.replicate 5 Slot.empty, 0⟩

/-- The character-folding loop of `hash`: `value = (ord(char) + a * value) % ts`
with `a = a * 31 % (ts - 1)`, starting from `value = 0`, `a = 31415`. -/
def hashAux (ts : Nat) : List Char → Nat → Nat → Nat
  | [], value, _ => value
  | c :: cs, value, a => hashAux ts cs ((c.toNat + a * value) % ts) (a * 31 % (ts - 1))

/-- The primary hash `hash` of `LazyDoubleTable`. -/
def hash (ts : Nat) (key : String) : Nat :=
  hashAux ts key.data 0 31415

/-- The `gcd` method (a plain Euclidean loop in the source, so it computes
the mathematical gcd). -/
def gcd (a b : Nat) : Nat := Nat.gcd a b

/-- The character-folding loop of `hash2`, with modulus `ts - 1`, hash base
`31 + 2 = 33` and seed `a = 27449`. -/
def hash2Aux (ts : Nat) : List Char → Nat → Nat → Nat
  | [], value, _ => value
  | c :: cs, value, a => hash2Aux ts cs ((c.toNat + a * value) % (ts - 1)) (a * 33 % (ts - 1))

/-- The `while gcd(step, table_size) != 1: step = (step + 1) % table_size`
loop of `hash2`, with explicit fuel.  Fuel `ts` always suffices
(see `hash2Adjust_spec`): starting below `ts`, the iteration reaches the
step value 1 after at most `ts` increments, and `gcd 1 ts = 1`. -/
def hash2Adjust (ts : Nat) : Nat → Nat → Nat
  | 0, step => step
  | fuel + 1, step => if gcd step ts = 1 then step else hash2Adjust ts fuel ((step + 1) % ts)

/-- The secondary hash `hash2`: the rolled value, clamped below by 1, then
incremented modulo `table_size` until coprime with `table_size`. -/
def hash2 (ts : Nat) (key : String) : Nat :=
  hash2Adjust ts ts (max 1 (hash2Aux ts key.data 0 27449))

/-- Errors surfaced by the table operations: `KeyError`,
`RuntimeError("Table is full")`, a `TypeError` from subscripting a
non-tuple slot, and exhaustion of the rehash-nesting fuel (proved
unreachable where a claim needs it). -/
inductive Err where
  | keyNotFound : Err
  | tableFull : Err
  | typeErr : Err
  | outOfFuel : Err
deriving DecidableEq, Repr

/-- The loop body of `__hashy_probe`: walks `fuel` further positions from
`pos`, advancing by `step` modulo the array length, remembering the first
deleted slot in insert mode.  Returning `Except.error` models the
`KeyError` / `RuntimeError` raises. -/
def hashyProbeAux {V : Type} (arr : List (Slot V)) (key : String) (isInsert : Bool)
    (step : Nat) : Nat → Nat → Option Nat → Except Err Nat
  | 0, _, _ => if isInsert then .error .tableFull else .error .keyNotFound
  | fuel + 1, pos, firstDeleted =>
    match arr.getD pos Slot.empty with
    | .deleted =>
      hashyProbeAux arr key isInsert step fuel ((pos + step) % arr.length)
        (if isInsert && firstDeleted.isNone then some pos else firstDeleted)
    | .empty =>
      if isInsert then
        match firstDeleted with
        | some fd => .ok fd
        | none => .ok pos
      else .error .keyNotFound
    | .occupied k _ =>
      if k = key then .ok pos
      else hashyProbeAux arr key isInsert step fuel ((pos + step) % arr.length) firstDeleted

/-- `__hashy_probe`: compute start and step, then walk at most
`table_size` positions. -/
def hashyProbe {V : Type} (t : Table V) (key : String) (isInsert : Bool) : Except Err Nat :=
  hashyProbeAux t.array key isInsert (hash2 (tableSize t) key)
    (tableSize t) (hash (tableSize t) key) none

/-- `__getitem__`: probe in lookup mode, then read the value component of
the found slot.  Lookup-mode probing only ever returns occupied slots, so
the `typeErr` branch (Python would raise `TypeError` subscripting
`None`/`DeletedItem`) is unreachable, as the refinement lemmas show. -/
def getItem {V : Type} (t : Table V) (key : String) : Except Err V :=
  match hashyProbe t key false with
  | .error e => .error e
  | .ok pos =>
    match t.array.getD pos Slot.empty with
    | .occupied _ v => .ok v
    | _ => .error .typeErr

/-- `__contains__`: `get`, catching exactly `KeyError`. -/
def containsKey {V : Type} (t : Table V) (key : String) : Except Err Bool :=
  match getItem t key with
  | .ok _ => .ok true
  | .error .keyNotFound => .ok false
  | .error e => .error e

/-- `__delitem__`: probe in lookup mode; only on success overwrite the slot
with the deleted marker and decrement the count.  (In the source the two
mutations follow the probe call, so a failing probe leaves the state
untouched; `delItemSt` below exposes exactly that.) -/
def delItem {V : Type} (t : Table V) (key : String) : Except Err (Table V) :=
  match hashyProbe t key false with
  | .error e => .error e
  | .ok pos =>
    .ok { t with array := t.array.set pos Slot.deleted, length := t.length - 1 }

/-- `__delitem__` in state-passing form: the pair of the post-state and the
outcome.  The probe is a pure function of the state and both mutations
come after it in the source, so the error branch returns the input state. -/
def delItemSt {V : Type} (t : Table V) (key : String) : Table V × Except Err Unit :=
  match hashyProbe t key false with
  | .error e => (t, .error e)
  | .ok pos =>
    ({ t with array := t.array.set pos Slot.deleted, length := t.length - 1 }, .ok ())

/-- `__getitem__` in state-passing form: reads do not mutate. -/
def getItemSt {V : Type} (t : Table V) (key : String) : Table V × Except Err V :=
  (t, getItem t key)

/-- `__contains__` in state-passing form: reads do not mutate. -/
def containsKeySt {V : Type} (t : Table V) (key : String) : Table V × Except Err Bool :=
  (t, containsKey t key)

/-- The body of `__setitem__`, parameterised by the rehash routine it
invokes: probe in insert mode, bump the count when the target slot was
empty or deleted, write the entry, then rehash when
`(length + 1) > table_size * 2 / 3` (embedded exactly as
`3 * (length + 1) > 2 * table_size`) and a larger size index exists. -/
def setItemCore {V : Type} (reh : Table V → Except Err (Table V))
    (t : Table V) (key : String) (data : V) : Except Err (Table V) :=
  match hashyProbe t key true with
  | .error e => .error e
  | .ok pos =>
    let isNew : Bool :=
      match t.array.getD pos Slot.empty with
      | .empty => true
      | .deleted => true
      | .occupied _ _ => false
    let len : Nat := if isNew then t.length + 1 else t.length
    let t1 : Table V := { t with array := t.array.set pos (Slot.occupied key data), length := len }
    if 3 * (len + 1) > 2 * tableSize t1 ∧ t1.sizeIndex < t1.sizes.length - 1 then reh t1
    else .ok t1

/-- One step of the `__rehash` reinsertion loop: stored tuples are
re-inserted through `__setitem__`, `None` and `DeletedItem` are skipped. -/
def reinsertStep {V : Type} (reh : Table V → Except Err (Table V))
    (acc : Table V) : Slot V → Except Err (Table V)
  | Slot.occupied k v => setItemCore reh acc k v
  | Slot.empty => pure acc
  | Slot.deleted => pure acc

/-- `__rehash` with explicit nesting fuel: advance the size index, fail with
`RuntimeError("Table is full")` past the end of the sizes list, allocate a
fresh array of the new size, and re-insert every stored tuple (skipping
`None` and `DeletedItem`) through `__setitem__`. -/
def rehashF {V : Type} : Nat → Table V → Except Err (Table V)
  | 0, _ => .error .outOfFuel
  | fuel + 1, t =>
    let idx := t.sizeIndex + 1
    if t.sizes.length ≤ idx then .error .tableFull
    else
      t.array.foldlM (reinsertStep (rehashF fuel))
        (⟨t.sizes, idx, List.replicate (t.sizes.getD idx 0) Slot.empty, 0⟩ : Table V)

/-- `__setitem__`.  The rehash fuel `sizes.length` bounds the nesting depth:
each nested rehash strictly increases the size index, which stays below
`sizes.length`. -/
def setItem {V : Type} (t : Table V) (key : String) (data : V) : Except Err (Table V) :=
  setItemCore (rehashF t.sizes.length) t key data

/-- The `keys()` iteration: every slot that `is not None` is subscripted at
`[0]`; on a `DeletedItem` slot that subscript raises `TypeError`. -/
def keysAux {V : Type} : List (Slot V) → Except Err (List String)
  | [] => .ok []
  | Slot.empty :: rest => keysAux rest
  | Slot.deleted :: rest => .error .typeErr
  | Slot.occupied k _ :: rest =>
    match keysAux rest with
    | .ok l => .ok (k :: l)
    | .error e => .error e

/-- `keys()`. -/
def keys {V : Type} (t : Table V) : Except Err (List String) := keysAux t.array

/-- The `values()` iteration, subscripting each non-`None` slot at `[1]`. -/
def valuesAux {V : Type} : List (Slot V) → Except Err (List V)
  | [] => .ok []
  | Slot.empty :: rest => valuesAux rest
  | Slot.deleted :: rest => .error .typeErr
  | Slot.occupied _ v :: rest =>
    match valuesAux rest with
    | .ok l => .ok (v :: l)
    | .error e => .error e

/-- `values()`. -/
def values {V : Type} (t : Table V) : Except Err (List V) := valuesAux t.array

/-- A sequence of mutating facade operations. -/
inductive Op (V : Type) where
  | set (key : String) (value : V) : Op V
  | del (key : String) : Op V
deriving DecidableEq, Repr

/-- Run a sequence of `set`/`delete` calls, stopping at the first raised
exception. -/
def runOps {V : Type} : Table V → List (Op V) → Except Err (Table V)
  | t, [] => .ok t
  | t, Op.set k v :: rest =>
    match setItem t k v with
    | .ok t1 => runOps t1 rest
    | .error e => .error e
  | t, Op.del k :: rest =>
    match delItem t k with
    | .ok t1 => runOps t1 rest
    | .error e => .error e

/-- The abstract map a sequence of operations denotes. -/
def applyOps {V : Type} : (String → Option V) → List (Op V) → String → Option V
  | m, [] => m
  | m, Op.set k v :: rest => applyOps (fun q => if q = k then some v else m q) rest
  | m, Op.del k :: rest => applyOps (fun q => if q = k then none else m q) rest

/-- Number of occupied (live) slots of an array. -/
def occCount {V : Type} (arr : List (Slot V)) : Nat :=
  arr.countP (fun s => match s with | Slot.occupied _ _ => true | _ => false)

/-- The key stored in a slot, if any. -/
def slotKey {V : Type} : Slot V → Option String
  | Slot.occupied k _ => some k
  | _ => none

/-- The `n`-th probe position for `key` in table `t`. -/
def probePos {V : Type} (t : Table V) (key : String) (n : Nat) : Nat :=
  (hash (tableSize t) key + n * hash2 (tableSize t) key) % tableSize t

end LazyDoubleTable

namespace LazyDoubleTable

/-! ### List helpers -/

theorem getD_oob {V : Type} {arr : List (Slot V)} {p : Nat} (h : arr.length ≤ p) :
    arr.getD p Slot.empty = Slot.empty := by
  simp [List.getD_eq_getElem?_getD, List.getElem?_eq_none h]

theorem lt_of_getD_ne_empty {V : Type} {arr : List (Slot V)} {p : Nat}
    (h : arr.getD p Slot.empty ≠ Slot.empty) : p < arr.length := by
  by_contra hc
  exact h (getD_oob (Nat.le_of_not_lt hc))

theorem getD_set_self {V : Type} {arr : List (Slot V)} {p : Nat} {a : Slot V}
    (h : p < arr.length) : (arr.set p a).getD p Slot.empty = a := by
  simp [List.getD_eq_getElem?_getD, List.getElem?_set_self, h]

theorem getD_set_ne {V : Type} (arr : List (Slot V)) (p q : Nat) (a : Slot V)
    (h : q ≠ p) : (arr.set p a).getD q Slot.empty = arr.getD q Slot.empty := by
  simp [List.getD_eq_getElem?_getD, List.getElem?_set_ne (fun hpq => h hpq.symm)]

theorem getD_replicate {V : Type} (n q : Nat) :
    (List.replicate n (Slot.empty : Slot V)).getD q Slot.empty = Slot.empty := by
  rcases Nat.lt_or_ge q n with h | h
  · simp [List.getD_eq_getElem?_getD, List.getElem?_replicate, h]
  · exact getD_oob (by simpa using h)

theorem countP_set_balance {V : Type} (f : Slot V → Bool) :
    ∀ (arr : List (Slot V)) (p : Nat) (a : Slot V), p < arr.length →
    (arr.set p a).countP f + (if f (arr.getD p Slot.empty) then 1 else 0) =
      arr.countP f + (if f a then 1 else 0)
  | [], p, a, h => by simp at h
  | x :: xs, 0, a, _ => by
    simp only [List.set, List.countP_cons, List.getD_cons_zero]
    ring
  | x :: xs, p + 1, a, h => by
    have ih := countP_set_balance f xs p a (by simpa using h)
    simp only [List.set, List.countP_cons, List.getD_cons_succ]
    omega

theorem countP_pos_of_getD {V : Type} (f : Slot V → Bool) :
    ∀ (arr : List (Slot V)) (p : Nat), p < arr.length →
    f (arr.getD p Slot.empty) = true → 0 < arr.countP f
  | [], p, h, _ => by simp at h
  | x :: xs, 0, _, hf => by
    simp only [List.getD_cons_zero] at hf
    simp [List.countP_cons, hf]
  | x :: xs, p + 1, h, hf => by
    have := countP_pos_of_getD f xs p (by simpa using h) (by simpa using hf)
    simp only [List.countP_cons]
    omega

/-! ### Bounds of the two hash functions -/

theorem hashAux_lt (ts : Nat) (hts : 0 < ts) :
    ∀ (l : List Char) (v a : Nat), v < ts → hashAux ts l v a < ts
  | [], _, _, hv => hv
  | c :: cs, v, a, _ => hashAux_lt ts hts cs _ _ (Nat.mod_lt _ hts)

theorem hash_lt (ts : Nat) (hts : 0 < ts) (key : String) : hash ts key < ts :=
  hashAux_lt ts hts key.data 0 31415 hts

theorem hash2Aux_cases (ts : Nat) (hts : 2 ≤ ts) :
    ∀ (l : List Char) (v a : Nat), hash2Aux ts l v a = v ∨ hash2Aux ts l v a < ts - 1
  | [], v, a => Or.inl rfl
  | c :: cs, v, a => by
    have h1 : 0 < ts - 1 := by omega
    rcases hash2Aux_cases ts hts cs ((c.toNat + a * v) % (ts - 1)) (a * 33 % (ts - 1)) with h | h
    · right
      rw [hash2Aux, h]
      exact Nat.mod_lt _ h1
    · right
      rw [hash2Aux]
      exact h

theorem hash2Adjust_spec (ts : Nat) (hts : 2 ≤ ts) :
    ∀ (fuel s : Nat), s < ts →
    (if s = 1 then 0 else if s = 0 then 1 else ts + 1 - s) ≤ fuel →
    Nat.gcd (hash2Adjust ts fuel s) ts = 1 ∧ hash2Adjust ts fuel s < ts
  | 0, s, hs, hd => by
    have hs1 : s = 1 := by
      by_contra h1
      rcases Nat.eq_zero_or_pos s with h0 | h0
      · simp [h0] at hd
      · rw [if_neg h1, if_neg (by omega)] at hd
        omega
    subst hs1
    exact ⟨Nat.gcd_one_left ts, hs⟩
  | fuel + 1, s, hs, hd => by
    rw [hash2Adjust]
    by_cases hg : gcd s ts = 1
    · rw [if_pos hg]
      exact ⟨hg, hs⟩
    · rw [if_neg hg]
      have hs1 : s ≠ 1 := by
        intro h
        exact hg (by rw [h]; exact Nat.gcd_one_left ts)
      rcases Nat.eq_zero_or_pos s with h0 | h0
      · have hmod : (s + 1) % ts = 1 := by
          rw [h0]
          exact Nat.mod_eq_of_lt (by omega)
        rw [hmod]
        exact hash2Adjust_spec ts hts fuel 1 (by omega) (by simp)
      · have hs2 : 2 ≤ s := by omega
        rcases Nat.lt_or_ge (s + 1) ts with hlt | hge
        · have hmod : (s + 1) % ts = s + 1 := Nat.mod_eq_of_lt hlt
          rw [hmod]
          refine hash2Adjust_spec ts hts fuel (s + 1) hlt ?_
          rw [if_neg (by omega), if_neg (by omega)]
          rw [if_neg hs1, if_neg (by omega)] at hd
          omega
        · have hts' : s + 1 = ts := by omega
          have hmod : (s + 1) % ts = 0 := by
            rw [hts']
            exact Nat.mod_self ts
          rw [hmod]
          refine hash2Adjust_spec ts hts fuel 0 (by omega) ?_
          rw [if_neg hs1, if_neg (by omega)] at hd
          simp
          omega

theorem hash2_spec (ts : Nat) (hts : 2 ≤ ts) (key : String) :
    Nat.gcd (hash2 ts key) ts = 1 ∧ 1 ≤ hash2 ts key ∧ hash2 ts key < ts := by
  have hs0 : max 1 (hash2Aux ts key.data 0 27449) < ts := by
    rcases hash2Aux_cases ts hts key.data 0 27449 with h | h
    · rw [h]
      omega
    · rcases Nat.eq_zero_or_pos (hash2Aux ts key.data 0 27449) with h0 | h0
      · rw [h0]
        omega
      · rw [Nat.max_eq_right h0]
        omega
  have hd : (if max 1 (hash2Aux ts key.data 0 27449) = 1 then 0
      else if max 1 (hash2Aux ts key.data 0 27449) = 0 then 1
      else ts + 1 - max 1 (hash2Aux ts key.data 0 27449)) ≤ ts := by
    by_cases h1 : max 1 (hash2Aux ts key.data 0 27449) = 1
    · simp [h1]
    · have h2 : 2 ≤ max 1 (hash2Aux ts key.data 0 27449) := by omega
      rw [if_neg h1, if_neg (by omega)]
      omega
  obtain ⟨hg, hlt⟩ := hash2Adjust_spec ts hts ts _ hs0 hd
  refine ⟨hg, ?_, hlt⟩
  rcases Nat.eq_zero_or_pos (hash2 ts key) with h0 | h0
  · exfalso
    rw [hash2] at h0
    rw [h0] at hg
    simp at hg
    omega
  · exact h0

/-! ### Probe-sequence facts -/

theorem probePos_lt {V : Type} (t : Table V) (key : String) (n : Nat)
    (hts : 0 < tableSize t) : probePos t key n < tableSize t :=
  Nat.mod_lt _ hts

theorem probePos_zero {V : Type} (t : Table V) (key : String)
    (hts : 0 < tableSize t) : probePos t key 0 = hash (tableSize t) key := by
  simp [probePos, Nat.mod_eq_of_lt (hash_lt _ hts key)]

theorem probePos_succ {V : Type} (t : Table V) (key : String) (n : Nat) :
    probePos t key (n + 1) = (probePos t key n + hash2 (tableSize t) key) % tableSize t := by
  unfold probePos
  rw [Nat.mod_add_mod]
  congr 1
  ring

theorem probeShift (len pos step m : Nat) :
    ((pos + step) % len + m * step) % len = (pos + (m + 1) * step) % len := by
  rw [Nat.mod_add_mod]
  congr 1
  ring

theorem probePos_inj {V : Type} (t : Table V) (key : String)
    (hts : 2 ≤ tableSize t) {i j : Nat} (hi : i < tableSize t) (hj : j < tableSize t)
    (h : probePos t key i = probePos t key j) : i = j := by
  obtain ⟨hg, _, _⟩ := hash2_spec (tableSize t) hts key
  have hmod : (hash (tableSize t) key + i * hash2 (tableSize t) key) ≡
      (hash (tableSize t) key + j * hash2 (tableSize t) key) [MOD tableSize t] := h
  have hmul : i * hash2 (tableSize t) key ≡ j * hash2 (tableSize t) key [MOD tableSize t] :=
    Nat.ModEq.add_left_cancel' _ hmod
  have hg2 : Nat.gcd (tableSize t) (hash2 (tableSize t) key) = 1 := by
    rw [Nat.gcd_comm]
    exact hg
  have hij : i ≡ j [MOD tableSize t] := Nat.ModEq.cancel_right_of_coprime hg2 hmul
  have := hij.eq_of_lt_of_lt hi hj
  exact this

theorem probePos_surj {V : Type} (t : Table V) (key : String)
    (hts : 2 ≤ tableSize t) {e : Nat} (he : e < tableSize t) :
    ∃ n, n < tableSize t ∧ probePos t key n = e := by
  have hpos : 0 < tableSize t := by omega
  let f : Fin (tableSize t) → Fin (tableSize t) :=
    fun n => ⟨probePos t key n.val, probePos_lt t key n.val hpos⟩
  have hinj : Function.Injective f := by
    intro a b hab
    have : probePos t key a.val = probePos t key b.val := congrArg Fin.val hab
    exact Fin.ext (probePos_inj t key hts a.isLt b.isLt this)
  have hsurj : Function.Surjective f := Finite.surjective_of_injective hinj
  obtain ⟨n, hn⟩ := hsurj ⟨e, he⟩
  exact ⟨n.val, n.isLt, congrArg Fin.val hn⟩


/-! ### Probe loop lemmas -/

theorem probeAux_lookup_error {V : Type} (arr : List (Slot V)) (key : String) (step : Nat) :
    ∀ (fuel pos : Nat) (fd : Option Nat) (e : Err),
    hashyProbeAux arr key false step fuel pos fd = .error e → e = .keyNotFound
  | 0, pos, fd, e, h => by
    simp [hashyProbeAux] at h
    exact h.symm
  | fuel + 1, pos, fd, e, h => by
    cases hslot : arr.getD pos Slot.empty with
    | empty =>
      simp only [hashyProbeAux, hslot] at h
      simp at h
      exact h.symm
    | deleted =>
      simp only [hashyProbeAux, hslot] at h
      exact probeAux_lookup_error arr key step fuel _ _ e h
    | occupied k v =>
      simp only [hashyProbeAux, hslot] at h
      by_cases hk : k = key
      · simp [hk] at h
      · rw [if_neg hk] at h
        exact probeAux_lookup_error arr key step fuel _ _ e h

theorem probeAux_lookup_absent {V : Type} (arr : List (Slot V)) (key : String) (step : Nat)
    (hnm : ∀ i v, arr.getD i Slot.empty ≠ Slot.occupied key v) :
    ∀ (fuel pos : Nat) (fd : Option Nat),
    hashyProbeAux arr key false step fuel pos fd = .error .keyNotFound
  | 0, pos, fd => by simp [hashyProbeAux]
  | fuel + 1, pos, fd => by
    cases hslot : arr.getD pos Slot.empty with
    | empty =>
      simp only [hashyProbeAux, hslot]
      simp
    | deleted =>
      simp only [hashyProbeAux, hslot]
      exact probeAux_lookup_absent arr key step hnm fuel _ _
    | occupied k v =>
      have hk : k ≠ key := by
        intro hk
        exact hnm pos v (by rw [hslot, hk])
      simp only [hashyProbeAux, hslot]
      rw [if_neg hk]
      exact probeAux_lookup_absent arr key step hnm fuel _ _

theorem probeAux_lookup_ok {V : Type} (arr : List (Slot V)) (key : String) (step : Nat) :
    ∀ (fuel pos : Nat) (fd : Option Nat) (p : Nat),
    hashyProbeAux arr key false step fuel pos fd = .ok p →
    ∃ v, arr.getD p Slot.empty = Slot.occupied key v
  | 0, pos, fd, p, h => by simp [hashyProbeAux] at h
  | fuel + 1, pos, fd, p, h => by
    cases hslot : arr.getD pos Slot.empty with
    | empty =>
      simp only [hashyProbeAux, hslot] at h
      simp at h
    | deleted =>
      simp only [hashyProbeAux, hslot] at h
      exact probeAux_lookup_ok arr key step fuel _ _ p h
    | occupied k v =>
      simp only [hashyProbeAux, hslot] at h
      by_cases hk : k = key
      · rw [if_pos hk] at h
        have hp : pos = p := by simpa using h
        exact ⟨v, by rw [← hp, hslot, hk]⟩
      · rw [if_neg hk] at h
        exact probeAux_lookup_ok arr key step fuel _ _ p h

theorem probeAux_insert_noEmpty {V : Type} (arr : List (Slot V)) (key : String) (step : Nat)
    (hne : ∀ i, i < arr.length → arr.getD i Slot.empty ≠ Slot.empty)
    (hnm : ∀ i v, arr.getD i Slot.empty ≠ Slot.occupied key v) :
    ∀ (fuel pos : Nat) (fd : Option Nat), pos < arr.length →
    hashyProbeAux arr key true step fuel pos fd = .error .tableFull
  | 0, pos, fd, _ => by simp [hashyProbeAux]
  | fuel + 1, pos, fd, hpos => by
    have hlen : 0 < arr.length := by omega
    cases hslot : arr.getD pos Slot.empty with
    | empty => exact absurd hslot (hne pos hpos)
    | deleted =>
      simp only [hashyProbeAux, hslot]
      exact probeAux_insert_noEmpty arr key step hne hnm fuel _ _ (Nat.mod_lt _ hlen)
    | occupied k v =>
      have hk : k ≠ key := by
        intro hk
        exact hnm pos v (by rw [hslot, hk])
      simp only [hashyProbeAux, hslot]
      rw [if_neg hk]
      exact probeAux_insert_noEmpty arr key step hne hnm fuel _ _ (Nat.mod_lt _ hlen)

theorem probeAux_insert_error {V : Type} (arr : List (Slot V)) (key : String) (step : Nat) :
    ∀ (fuel pos : Nat) (fd : Option Nat) (e : Err), pos < arr.length →
    hashyProbeAux arr key true step fuel pos fd = .error e →
    e = .tableFull ∧ ∀ m, m < fuel →
      arr.getD ((pos + m * step) % arr.length) Slot.empty ≠ Slot.empty ∧
      ∀ v, arr.getD ((pos + m * step) % arr.length) Slot.empty ≠ Slot.occupied key v
  | 0, pos, fd, e, _, h => by
    simp [hashyProbeAux] at h
    exact ⟨h.symm, by omega⟩
  | fuel + 1, pos, fd, e, hpos, h => by
    have hlen : 0 < arr.length := by omega
    have hpos0 : (pos + 0 * step) % arr.length = pos := by
      simp [Nat.mod_eq_of_lt hpos]
    cases hslot : arr.getD pos Slot.empty with
    | empty =>
      simp only [hashyProbeAux, hslot] at h
      rcases fd with _ | fd0 <;> simp at h
    | deleted =>
      simp only [hashyProbeAux, hslot] at h
      obtain ⟨he, hrest⟩ :=
        probeAux_insert_error arr key step fuel ((pos + step) % arr.length) _ e
          (Nat.mod_lt _ hlen) h
      refine ⟨he, ?_⟩
      intro m hm
      rcases m with _ | m
      · rw [hpos0, hslot]
        exact ⟨fun hc => Slot.noConfusion hc, fun v hc => Slot.noConfusion hc⟩
      · rw [← probeShift arr.length pos step m]
        exact hrest m (by omega)
    | occupied k v =>
      simp only [hashyProbeAux, hslot] at h
      by_cases hk : k = key
      · rw [if_pos hk] at h
        simp at h
      · rw [if_neg hk] at h
        obtain ⟨he, hrest⟩ :=
          probeAux_insert_error arr key step fuel ((pos + step) % arr.length) _ e
            (Nat.mod_lt _ hlen) h
        refine ⟨he, ?_⟩
        intro m hm
        rcases m with _ | m
        · rw [hpos0, hslot]
          refine ⟨fun hc => Slot.noConfusion hc, ?_⟩
          intro w hc
          cases hc
          exact hk rfl
        · rw [← probeShift arr.length pos step m]
          exact hrest m (by omega)

theorem probeAux_reach_match {V : Type} (t : Table V) (key : String) (b : Bool) (v : V) :
    ∀ (d j : Nat) (fd : Option Nat),
    j + d < tableSize t →
    t.array.getD (probePos t key (j + d)) Slot.empty = Slot.occupied key v →
    (∀ m, j ≤ m → m < j + d →
      t.array.getD (probePos t key m) Slot.empty ≠ Slot.empty ∧
      ∀ w, t.array.getD (probePos t key m) Slot.empty ≠ Slot.occupied key w) →
    hashyProbeAux t.array key b (hash2 (tableSize t) key) (tableSize t - j) (probePos t key j) fd =
      .ok (probePos t key (j + d))
  | 0, j, fd, hlt, hslot, hmid => by
    simp only [Nat.add_zero] at hlt hslot ⊢
    have hfuel : tableSize t - j = (tableSize t - j - 1) + 1 := by omega
    rw [hfuel]
    simp only [hashyProbeAux, hslot]
    simp
  | d + 1, j, fd, hlt, hslot, hmid => by
    have hmid0 := hmid j (Nat.le_refl j) (by omega)
    have hfuel : tableSize t - j = (tableSize t - (j + 1)) + 1 := by omega
    have hstep : (probePos t key j + hash2 (tableSize t) key) % t.array.length =
        probePos t key (j + 1) := (probePos_succ t key j).symm
    have hshift : j + (d + 1) = (j + 1) + d := by ring
    have hlt2 : (j + 1) + d < tableSize t := by omega
    have hslot2 : t.array.getD (probePos t key ((j + 1) + d)) Slot.empty =
        Slot.occupied key v := by
      rw [← hshift]
      exact hslot
    have hmid2 : ∀ m, j + 1 ≤ m → m < (j + 1) + d →
        t.array.getD (probePos t key m) Slot.empty ≠ Slot.empty ∧
        ∀ w, t.array.getD (probePos t key m) Slot.empty ≠ Slot.occupied key w :=
      fun m hm1 hm2 => hmid m (by omega) (by omega)
    rw [hfuel]
    cases hs : t.array.getD (probePos t key j) Slot.empty with
    | empty => exact absurd hs hmid0.1
    | deleted =>
      simp only [hashyProbeAux, hs]
      rw [hstep, hshift]
      exact probeAux_reach_match t key b v d (j + 1) _ hlt2 hslot2 hmid2
    | occupied k w =>
      have hk : k ≠ key := by
        intro hkk
        subst hkk
        exact hmid0.2 w hs
      simp only [hashyProbeAux, hs]
      rw [if_neg hk, hstep, hshift]
      exact probeAux_reach_match t key b v d (j + 1) fd hlt2 hslot2 hmid2

theorem probeAux_insert_target {V : Type} (t : Table V) (key : String)
    (hnm : ∀ i w, t.array.getD i Slot.empty ≠ Slot.occupied key w)
    (N : Nat) (hN : N < tableSize t)
    (hNe : t.array.getD (probePos t key N) Slot.empty = Slot.empty)
    (hNmin : ∀ m, m < N → t.array.getD (probePos t key m) Slot.empty ≠ Slot.empty) :
    ∀ (d j : Nat) (fd : Option Nat), j + d = N →
    ((fd = none ∧ ∀ m, m < j → t.array.getD (probePos t key m) Slot.empty ≠ Slot.deleted) ∨
     (∃ m0, m0 < j ∧ fd = some (probePos t key m0) ∧
       t.array.getD (probePos t key m0) Slot.empty = Slot.deleted ∧
       ∀ m, m < m0 → t.array.getD (probePos t key m) Slot.empty ≠ Slot.deleted)) →
    ∃ p n, hashyProbeAux t.array key true (hash2 (tableSize t) key)
        (tableSize t - j) (probePos t key j) fd = .ok p ∧
      (t.array.getD p Slot.empty = Slot.empty ∨ t.array.getD p Slot.empty = Slot.deleted) ∧
      n ≤ N ∧ probePos t key n = p ∧
      ∀ m, m < n → t.array.getD (probePos t key m) Slot.empty ≠ Slot.empty
  | 0, j, fd, hjd, hfd => by
    have hj : j = N := by omega
    subst hj
    have hfuel : tableSize t - j = (tableSize t - j - 1) + 1 := by omega
    rw [hfuel]
    simp only [hashyProbeAux, hNe]
    rcases hfd with ⟨hfd, hnodel⟩ | ⟨m0, hm0, hfd, hdel, hmin0⟩
    · subst hfd
      refine ⟨probePos t key j, j, by simp, Or.inl hNe, Nat.le_refl j, rfl, ?_⟩
      intro m hm
      exact hNmin m hm
    · subst hfd
      refine ⟨probePos t key m0, m0, by simp, Or.inr hdel, by omega, rfl, ?_⟩
      intro m hm
      exact hNmin m (by omega)
  | d + 1, j, fd, hjd, hfd => by
    have hjN : j < N := by omega
    have hfuel : tableSize t - j = (tableSize t - (j + 1)) + 1 := by omega
    have hstep : (probePos t key j + hash2 (tableSize t) key) % t.array.length =
        probePos t key (j + 1) := (probePos_succ t key j).symm
    have hjd2 : (j + 1) + d = N := by omega
    rw [hfuel]
    cases hs : t.array.getD (probePos t key j) Slot.empty with
    | empty => exact absurd hs (hNmin j hjN)
    | deleted =>
      simp only [hashyProbeAux, hs]
      rw [hstep]
      rcases hfd with ⟨hfd, hnodel⟩ | ⟨m0, hm0, hfd, hdel, hmin0⟩
      · subst hfd
        simp only [Option.isNone_none, Bool.and_true, if_pos]
        refine probeAux_insert_target t key hnm N hN hNe hNmin d (j + 1)
          (some (probePos t key j)) hjd2 (Or.inr ⟨j, by omega, rfl, hs, hnodel⟩)
      · subst hfd
        simp only [Option.isNone_some, Bool.and_false, if_neg]
        refine probeAux_insert_target t key hnm N hN hNe hNmin d (j + 1)
          (some (probePos t key m0)) hjd2 (Or.inr ⟨m0, by omega, rfl, hdel, hmin0⟩)
    | occupied k w =>
      have hk : k ≠ key := by
        intro hkk
        subst hkk
        exact hnm _ w hs
      simp only [hashyProbeAux, hs]
      rw [if_neg hk, hstep]
      rcases hfd with ⟨hfd, hnodel⟩ | ⟨m0, hm0, hfd, hdel, hmin0⟩
      · refine probeAux_insert_target t key hnm N hN hNe hNmin d (j + 1) fd hjd2
          (Or.inl ⟨hfd, ?_⟩)
        intro m hm
        rcases Nat.lt_or_ge m j with h2 | h2
        · exact hnodel m h2
        · have hmj : m = j := by omega
          rw [hmj, hs]
          exact fun hc => Slot.noConfusion hc
      · exact probeAux_insert_target t key hnm N hN hNe hNmin d (j + 1) fd hjd2
          (Or.inr ⟨m0, by omega, hfd, hdel, hmin0⟩)

/-! ### Representation invariant -/

/-- The load-factor guard established after every completed facade
operation: the rehash condition of `__setitem__` does not hold of the
resting state. -/
def Good {V : Type} (t : Table V) : Prop :=
  ¬(3 * (t.length + 1) > 2 * tableSize t ∧ t.sizeIndex < t.sizes.length - 1)

/-- Structural invariant of a table state. -/
structure Inv {V : Type} (t : Table V) : Prop where
  sizesOK : ∀ s ∈ t.sizes, 2 ≤ s
  idxLt : t.sizeIndex < t.sizes.length
  arrSz : tableSize t = t.sizes.getD t.sizeIndex 0
  lenEq : t.length = occCount t.array
  uniq : ∀ i j k, slotKey (t.array.getD i Slot.empty) = some k →
      slotKey (t.array.getD j Slot.empty) = some k → i = j
  finds : ∀ i k v, t.array.getD i Slot.empty = Slot.occupied k v →
      ∃ n, n < tableSize t ∧ probePos t k n = i ∧
        ∀ m, m < n → t.array.getD (probePos t k m) Slot.empty ≠ Slot.empty

/-- The table represents the abstract map `m`. -/
structure Rep {V : Type} (t : Table V) (m : String → Option V) : Prop where
  inv : Inv t
  sound : ∀ k v, m k = some v ↔ ∃ i, t.array.getD i Slot.empty = Slot.occupied k v

theorem Inv.tsPos {V : Type} {t : Table V} (h : Inv t) : 2 ≤ tableSize t := by
  rw [h.arrSz]
  have hmem : t.sizes.getD t.sizeIndex 0 ∈ t.sizes := by
    rw [List.getD_eq_getElem?_getD, List.getElem?_eq_getElem h.idxLt]
    exact List.getElem_mem _
  exact h.sizesOK _ hmem

theorem hashyProbe_as_aux {V : Type} (t : Table V) (key : String) (b : Bool)
    (hts : 0 < tableSize t) :
    hashyProbe t key b = hashyProbeAux t.array key b (hash2 (tableSize t) key)
      (tableSize t - 0) (probePos t key 0) none := by
  rw [probePos_zero t key hts]
  rfl

/-- A key not in the map occupies no slot. -/
theorem noMatch_of_absent {V : Type} {t : Table V} {m : String → Option V}
    (hRep : Rep t m) {k : String} (hk : m k = none) :
    ∀ i w, t.array.getD i Slot.empty ≠ Slot.occupied k w := by
  intro i w hc
  have : m k = some w := (hRep.sound k w).mpr ⟨i, hc⟩
  rw [hk] at this
  cases this

/-- Probing (in either mode) for a stored key returns its slot. -/
theorem probe_present {V : Type} {t : Table V} {m : String → Option V}
    (hRep : Rep t m) {k : String} {v : V} (hk : m k = some v) (b : Bool) :
    ∃ i, hashyProbe t k b = .ok i ∧ t.array.getD i Slot.empty = Slot.occupied k v := by
  obtain ⟨i, hi⟩ := (hRep.sound k v).mp hk
  have hts2 : 2 ≤ tableSize t := hRep.inv.tsPos
  obtain ⟨n, hn, hpn, hpre⟩ := hRep.inv.finds i k v hi
  have hmid : ∀ m', 0 ≤ m' → m' < 0 + n →
      t.array.getD (probePos t k m') Slot.empty ≠ Slot.empty ∧
      ∀ w, t.array.getD (probePos t k m') Slot.empty ≠ Slot.occupied k w := by
    intro m' _ hm'
    rw [Nat.zero_add] at hm'
    refine ⟨hpre m' hm', ?_⟩
    intro w hc
    have h1 : slotKey (t.array.getD (probePos t k m') Slot.empty) = some k := by
      rw [hc]
      rfl
    have h2 : slotKey (t.array.getD i Slot.empty) = some k := by
      rw [hi]
      rfl
    have heq : probePos t k m' = i := hRep.inv.uniq _ _ k h1 h2
    rw [← hpn] at heq
    have := probePos_inj t k hts2 (by omega) hn heq
    omega
  have hreach := probeAux_reach_match t k b v n 0 none (by omega)
    (by rw [Nat.zero_add, hpn]; exact hi) hmid
  rw [Nat.zero_add, hpn] at hreach
  refine ⟨i, ?_, hi⟩
  rw [hashyProbe_as_aux t k b (by omega)]
  exact hreach

/-- Lookup probing for an absent key raises `KeyError`. -/
theorem probe_absent_lookup {V : Type} {t : Table V} {m : String → Option V}
    (hRep : Rep t m) {k : String} (hk : m k = none) :
    hashyProbe t k false = .error .keyNotFound :=
  probeAux_lookup_absent t.array k _ (noMatch_of_absent hRep hk) _ _ _

/-- Insert probing for an absent key, when an empty slot exists, lands on an
empty or deleted slot reached before any empty slot. -/
theorem probe_absent_insert {V : Type} {t : Table V} {m : String → Option V}
    (hRep : Rep t m) {k : String} (hk : m k = none)
    (he : ∃ i, i < tableSize t ∧ t.array.getD i Slot.empty = Slot.empty) :
    ∃ p n, hashyProbe t k true = .ok p ∧
      (t.array.getD p Slot.empty = Slot.empty ∨ t.array.getD p Slot.empty = Slot.deleted) ∧
      n < tableSize t ∧ probePos t k n = p ∧
      ∀ m', m' < n → t.array.getD (probePos t k m') Slot.empty ≠ Slot.empty := by
  classical
  have hts2 : 2 ≤ tableSize t := hRep.inv.tsPos
  obtain ⟨i, hi, hie⟩ := he
  obtain ⟨n0, hn0, hpn0⟩ := probePos_surj t k hts2 hi
  have hex : ∃ n, t.array.getD (probePos t k n) Slot.empty = Slot.empty :=
    ⟨n0, by rw [hpn0]; exact hie⟩
  have hNe := Nat.find_spec hex
  have hNmin : ∀ m', m' < Nat.find hex →
      t.array.getD (probePos t k m') Slot.empty ≠ Slot.empty :=
    fun m' hm' => Nat.find_min hex hm'
  have hNlt : Nat.find hex < tableSize t :=
    Nat.lt_of_le_of_lt (Nat.find_min' hex (by rw [hpn0]; exact hie)) hn0
  obtain ⟨p, n, hres, hslot, hnN, hpn, hpre⟩ :=
    probeAux_insert_target t k (noMatch_of_absent hRep hk) (Nat.find hex) hNlt hNe hNmin
      (Nat.find hex) 0 none (by omega) (Or.inl ⟨rfl, by omega⟩)
  refine ⟨p, n, ?_, hslot, by omega, hpn, hpre⟩
  rw [hashyProbe_as_aux t k true (by omega)]
  exact hres

/-- Insert probing for an absent key with no empty slot anywhere raises
`RuntimeError("Table is full")`. -/
theorem probe_absent_insert_full {V : Type} {t : Table V} {m : String → Option V}
    (hRep : Rep t m) {k : String} (hk : m k = none)
    (hne : ∀ i, i < tableSize t → t.array.getD i Slot.empty ≠ Slot.empty) :
    hashyProbe t k true = .error .tableFull := by
  have hts2 : 2 ≤ tableSize t := hRep.inv.tsPos
  rw [hashyProbe_as_aux t k true (by omega)]
  exact probeAux_insert_noEmpty t.array k _ hne (noMatch_of_absent hRep hk) _ _ none
    (probePos_lt t k 0 (by omega))

/-! ### Preservation of the representation invariant -/

theorem ne_empty_set {V : Type} (arr : List (Slot V)) (p : Nat) (a : Slot V)
    (ha : a ≠ Slot.empty) (q : Nat) (hq : arr.getD q Slot.empty ≠ Slot.empty) :
    (arr.set p a).getD q Slot.empty ≠ Slot.empty := by
  by_cases hqp : q = p
  · subst hqp
    rw [getD_set_self (lt_of_getD_ne_empty hq)]
    exact ha
  · rw [getD_set_ne arr p q a hqp]
    exact hq

theorem probePos_set {V : Type} (t : Table V) (i : Nat) (a : Slot V) (key : String) (n : Nat) :
    probePos { t with array := t.array.set i a } key n = probePos t key n := by
  simp [probePos, tableSize, List.length_set]

theorem tableSize_set {V : Type} (t : Table V) (i : Nat) (a : Slot V) :
    tableSize { t with array := t.array.set i a } = tableSize t := by
  simp [tableSize, List.length_set]

/-- Overwriting the occupied slot of `k` with a new value represents the
updated map. -/
theorem rep_update {V : Type} {t : Table V} {m : String → Option V}
    (hRep : Rep t m) {k : String} {w v : V} {i : Nat}
    (hi : t.array.getD i Slot.empty = Slot.occupied k w) :
    Rep { t with array := t.array.set i (Slot.occupied k v) }
      (fun q => if q = k then some v else m q) := by
  have hilt : i < t.array.length := lt_of_getD_ne_empty (by rw [hi]; exact fun hc => Slot.noConfusion hc)
  have hkeys : ∀ j, slotKey ((t.array.set i (Slot.occupied k v)).getD j Slot.empty) =
      slotKey (t.array.getD j Slot.empty) := by
    intro j
    by_cases hj : j = i
    · subst hj
      rw [getD_set_self hilt, hi]
      rfl
    · rw [getD_set_ne _ _ _ _ hj]
  refine ⟨⟨hRep.inv.sizesOK, hRep.inv.idxLt, ?_, ?_, ?_, ?_⟩, ?_⟩
  · rw [tableSize_set]
    exact hRep.inv.arrSz
  · show t.length = occCount (t.array.set i (Slot.occupied k v))
    have hbal := countP_set_balance
      (fun s => match s with | Slot.occupied _ _ => true | _ => false)
      t.array i (Slot.occupied k v) hilt
    rw [hi] at hbal
    simp only [occCount] at *
    rw [hRep.inv.lenEq]
    simp only [occCount]
    omega
  · intro a b k2 ha hb
    rw [hkeys] at ha hb
    exact hRep.inv.uniq a b k2 ha hb
  · intro j k2 v2 hj
    by_cases hji : j = i
    · subst hji
      rw [getD_set_self hilt] at hj
      cases hj
      obtain ⟨n, hn, hpn, hpre⟩ := hRep.inv.finds j k w hi
      refine ⟨n, ?_, ?_, ?_⟩
      · rw [tableSize_set]
        exact hn
      · rw [probePos_set]
        exact hpn
      · intro m2 hm2
        rw [probePos_set]
        exact ne_empty_set t.array j (Slot.occupied k v)
          (fun hc => Slot.noConfusion hc) _ (hpre m2 hm2)
    · rw [getD_set_ne _ _ _ _ hji] at hj
      obtain ⟨n, hn, hpn, hpre⟩ := hRep.inv.finds j k2 v2 hj
      refine ⟨n, ?_, ?_, ?_⟩
      · rw [tableSize_set]
        exact hn
      · rw [probePos_set]
        exact hpn
      · intro m2 hm2
        rw [probePos_set]
        exact ne_empty_set t.array i (Slot.occupied k v)
          (fun hc => Slot.noConfusion hc) _ (hpre m2 hm2)
  · intro q v2
    by_cases hq : q = k
    · subst hq
      simp only [if_pos rfl]
      constructor
      · intro hv
        cases hv
        exact ⟨i, getD_set_self hilt⟩
      · intro ⟨j, hj⟩
        by_cases hji : j = i
        · subst hji
          rw [getD_set_self hilt] at hj
          cases hj
          rfl
        · rw [getD_set_ne _ _ _ _ hji] at hj
          have h1 : slotKey (t.array.getD j Slot.empty) = some q := by rw [hj]; rfl
          have h2 : slotKey (t.array.getD i Slot.empty) = some q := by rw [hi]; rfl
          exact absurd (hRep.inv.uniq j i q h1 h2) hji
    · rw [if_neg hq]
      constructor
      · intro hv
        obtain ⟨j, hj⟩ := (hRep.sound q v2).mp hv
        have hji : j ≠ i := by
          intro hji
          subst hji
          rw [hi] at hj
          cases hj
          exact hq rfl
        exact ⟨j, by rw [getD_set_ne _ _ _ _ hji]; exact hj⟩
      · intro ⟨j, hj⟩
        have hji : j ≠ i := by
          intro hji
          subst hji
          rw [getD_set_self hilt] at hj
          cases hj
          exact hq rfl
        rw [getD_set_ne _ _ _ _ hji] at hj
        exact (hRep.sound q v2).mpr ⟨j, hj⟩

theorem probePos_congr {V : Type} {t u : Table V} (h : tableSize u = tableSize t)
    (key : String) (n : Nat) : probePos u key n = probePos t key n := by
  unfold probePos
  rw [h]

theorem slotKey_some {V : Type} {s : Slot V} {k : String} (h : slotKey s = some k) :
    ∃ w, s = Slot.occupied k w := by
  cases s with
  | empty => simp [slotKey] at h
  | deleted => simp [slotKey] at h
  | occupied k2 v2 =>
    simp only [slotKey, Option.some.injEq] at h
    exact ⟨v2, by rw [h]⟩

/-- Writing an absent key into an empty or deleted slot, reached by its
probe sequence before any empty slot, represents the extended map. -/
theorem rep_newkey {V : Type} {t : Table V} {m : String → Option V}
    (hRep : Rep t m) {k : String} (hk : m k = none) {v : V} {p n : Nat}
    (hp : t.array.getD p Slot.empty = Slot.empty ∨ t.array.getD p Slot.empty = Slot.deleted)
    (hn : n < tableSize t) (hpn : probePos t k n = p)
    (hpre : ∀ m2, m2 < n → t.array.getD (probePos t k m2) Slot.empty ≠ Slot.empty) :
    Rep { t with array := t.array.set p (Slot.occupied k v), length := t.length + 1 }
      (fun q => if q = k then some v else m q) := by
  have hts2 : 2 ≤ tableSize t := hRep.inv.tsPos
  have hplt : p < t.array.length := by
    rw [← hpn]
    exact probePos_lt t k n (by omega)
  have htsz :
      tableSize { t with array := t.array.set p (Slot.occupied k v), length := t.length + 1 } =
        tableSize t := by
    simp [tableSize, List.length_set]
  have hnm := noMatch_of_absent hRep hk
  refine ⟨⟨hRep.inv.sizesOK, hRep.inv.idxLt, ?_, ?_, ?_, ?_⟩, ?_⟩
  · rw [htsz]
    exact hRep.inv.arrSz
  · show t.length + 1 = occCount (t.array.set p (Slot.occupied k v))
    have hbal := countP_set_balance
      (fun s => match s with | Slot.occupied _ _ => true | _ => false)
      t.array p (Slot.occupied k v) hplt
    have hold : (fun s => match s with | Slot.occupied _ _ => true | _ => false)
        (t.array.getD p Slot.empty) = false := by
      rcases hp with hp | hp <;> rw [hp]
    rw [hold] at hbal
    simp only [occCount] at *
    simp at hbal
    rw [hRep.inv.lenEq]
    simp only [occCount]
    omega
  · intro a b k2 ha hb
    by_cases hak : a = p <;> by_cases hbk : b = p
    · rw [hak, hbk]
    · exfalso
      subst hak
      rw [getD_set_self hplt] at ha
      rw [getD_set_ne _ _ _ _ hbk] at hb
      simp only [slotKey, Option.some.injEq] at ha
      subst ha
      obtain ⟨w2, hw2⟩ := slotKey_some hb
      exact hnm b w2 hw2
    · exfalso
      subst hbk
      rw [getD_set_self hplt] at hb
      rw [getD_set_ne _ _ _ _ hak] at ha
      simp only [slotKey, Option.some.injEq] at hb
      subst hb
      obtain ⟨w2, hw2⟩ := slotKey_some ha
      exact hnm a w2 hw2
    · rw [getD_set_ne _ _ _ _ hak] at ha
      rw [getD_set_ne _ _ _ _ hbk] at hb
      exact hRep.inv.uniq a b k2 ha hb
  · intro j k2 v2 hj
    by_cases hji : j = p
    · subst hji
      rw [getD_set_self hplt] at hj
      cases hj
      refine ⟨n, ?_, ?_, ?_⟩
      · rw [htsz]
        exact hn
      · rw [probePos_congr htsz]
        exact hpn
      · intro m2 hm2
        rw [probePos_congr htsz]
        exact ne_empty_set t.array j (Slot.occupied k v)
          (fun hc => Slot.noConfusion hc) _ (hpre m2 hm2)
    · rw [getD_set_ne _ _ _ _ hji] at hj
      obtain ⟨n2, hn2, hpn2, hpre2⟩ := hRep.inv.finds j k2 v2 hj
      refine ⟨n2, ?_, ?_, ?_⟩
      · rw [htsz]
        exact hn2
      · rw [probePos_congr htsz]
        exact hpn2
      · intro m2 hm2
        rw [probePos_congr htsz]
        exact ne_empty_set t.array p (Slot.occupied k v)
          (fun hc => Slot.noConfusion hc) _ (hpre2 m2 hm2)
  · intro q v2
    by_cases hq : q = k
    · subst hq
      simp only [if_pos rfl]
      constructor
      · intro hv
        cases hv
        exact ⟨p, getD_set_self hplt⟩
      · intro ⟨j, hj⟩
        by_cases hji : j = p
        · subst hji
          rw [getD_set_self hplt] at hj
          cases hj
          rfl
        · rw [getD_set_ne _ _ _ _ hji] at hj
          exact absurd hj (hnm j v2)
    · rw [if_neg hq]
      constructor
      · intro hv
        obtain ⟨j, hj⟩ := (hRep.sound q v2).mp hv
        have hji : j ≠ p := by
          intro hji
          subst hji
          rcases hp with hp | hp <;> rw [hp] at hj <;> cases hj
        exact ⟨j, by rw [getD_set_ne _ _ _ _ hji]; exact hj⟩
      · intro ⟨j, hj⟩
        have hji : j ≠ p := by
          intro hji
          subst hji
          rw [getD_set_self hplt] at hj
          cases hj
          exact hq rfl
        rw [getD_set_ne _ _ _ _ hji] at hj
        exact (hRep.sound q v2).mpr ⟨j, hj⟩

/-- Overwriting the occupied slot of `k` with the deleted marker represents
the map without `k`. -/
theorem rep_delete {V : Type} {t : Table V} {m : String → Option V}
    (hRep : Rep t m) {k : String} {v : V} {i : Nat}
    (hi : t.array.getD i Slot.empty = Slot.occupied k v) :
    Rep { t with array := t.array.set i Slot.deleted, length := t.length - 1 }
      (fun q => if q = k then none else m q) := by
  have hilt : i < t.array.length :=
    lt_of_getD_ne_empty (by rw [hi]; exact fun hc => Slot.noConfusion hc)
  have htsz :
      tableSize { t with array := t.array.set i Slot.deleted, length := t.length - 1 } =
        tableSize t := by
    simp [tableSize, List.length_set]
  refine ⟨⟨hRep.inv.sizesOK, hRep.inv.idxLt, ?_, ?_, ?_, ?_⟩, ?_⟩
  · rw [htsz]
    exact hRep.inv.arrSz
  · show t.length - 1 = occCount (t.array.set i Slot.deleted)
    have hbal := countP_set_balance
      (fun s => match s with | Slot.occupied _ _ => true | _ => false)
      t.array i Slot.deleted hilt
    have hpos := countP_pos_of_getD
      (fun s => match s with | Slot.occupied _ _ => true | _ => false)
      t.array i hilt (by rw [hi])
    rw [hi] at hbal
    simp only [occCount] at *
    simp at hbal
    rw [hRep.inv.lenEq]
    simp only [occCount]
    omega
  · intro a b k2 ha hb
    have hai : a ≠ i := by
      intro hc
      subst hc
      rw [getD_set_self hilt] at ha
      simp [slotKey] at ha
    have hbi : b ≠ i := by
      intro hc
      subst hc
      rw [getD_set_self hilt] at hb
      simp [slotKey] at hb
    rw [getD_set_ne _ _ _ _ hai] at ha
    rw [getD_set_ne _ _ _ _ hbi] at hb
    exact hRep.inv.uniq a b k2 ha hb
  · intro j k2 v2 hj
    have hji : j ≠ i := by
      intro hc
      subst hc
      rw [getD_set_self hilt] at hj
      cases hj
    rw [getD_set_ne _ _ _ _ hji] at hj
    obtain ⟨n, hn, hpn, hpre⟩ := hRep.inv.finds j k2 v2 hj
    refine ⟨n, ?_, ?_, ?_⟩
    · rw [htsz]
      exact hn
    · rw [probePos_congr htsz]
      exact hpn
    · intro m2 hm2
      rw [probePos_congr htsz]
      exact ne_empty_set t.array i Slot.deleted
        (fun hc => Slot.noConfusion hc) _ (hpre m2 hm2)
  · intro q v2
    by_cases hq : q = k
    · subst hq
      simp only [if_pos rfl]
      constructor
      · intro hv
        cases hv
      · intro ⟨j, hj⟩
        exfalso
        have hji : j ≠ i := by
          intro hc
          subst hc
          rw [getD_set_self hilt] at hj
          cases hj
        rw [getD_set_ne _ _ _ _ hji] at hj
        have h1 : slotKey (t.array.getD j Slot.empty) = some q := by rw [hj]; rfl
        have h2 : slotKey (t.array.getD i Slot.empty) = some q := by rw [hi]; rfl
        exact hji (hRep.inv.uniq j i q h1 h2)
    · rw [if_neg hq]
      constructor
      · intro hv
        obtain ⟨j, hj⟩ := (hRep.sound q v2).mp hv
        have hji : j ≠ i := by
          intro hc
          subst hc
          rw [hi] at hj
          cases hj
          exact hq rfl
        exact ⟨j, by rw [getD_set_ne _ _ _ _ hji]; exact hj⟩
      · intro ⟨j, hj⟩
        have hji : j ≠ i := by
          intro hc
          subst hc
          rw [getD_set_self hilt] at hj
          cases hj
        rw [getD_set_ne _ _ _ _ hji] at hj
        exact (hRep.sound q v2).mpr ⟨j, hj⟩

/-! ### Facade operation refinement -/

theorem getItem_present {V : Type} {t : Table V} {m : String → Option V}
    (hRep : Rep t m) {k : String} {v : V} (hk : m k = some v) :
    getItem t k = .ok v := by
  obtain ⟨i, hp, hi⟩ := probe_present hRep hk false
  simp only [getItem, hp]
  rw [hi]

theorem getItem_absent {V : Type} {t : Table V} {m : String → Option V}
    (hRep : Rep t m) {k : String} (hk : m k = none) :
    getItem t k = .error .keyNotFound := by
  simp [getItem, probe_absent_lookup hRep hk]

theorem delItem_absent {V : Type} {t : Table V} {m : String → Option V}
    (hRep : Rep t m) {k : String} (hk : m k = none) :
    delItem t k = .error .keyNotFound := by
  simp [delItem, probe_absent_lookup hRep hk]

theorem delItem_present {V : Type} {t : Table V} {m : String → Option V}
    (hRep : Rep t m) {k : String} {v : V} (hk : m k = some v) :
    ∃ i, t.array.getD i Slot.empty = Slot.occupied k v ∧
      delItem t k =
        .ok { t with array := t.array.set i Slot.deleted, length := t.length - 1 } := by
  obtain ⟨i, hp, hi⟩ := probe_present hRep hk false
  exact ⟨i, hi, by simp [delItem, hp]⟩

theorem good_delete {V : Type} {t : Table V} (hGood : Good t) (i : Nat) :
    Good { t with array := t.array.set i Slot.deleted, length := t.length - 1 } := by
  intro hcond
  obtain ⟨h1, h2⟩ := hcond
  have h1b : 3 * ((t.length - 1) + 1) > 2 * (t.array.set i Slot.deleted).length := h1
  have h2b : t.sizeIndex < t.sizes.length - 1 := h2
  rw [List.length_set] at h1b
  have h1c : 3 * (t.length + 1) > 2 * tableSize t := by
    unfold tableSize
    omega
  exact hGood ⟨h1c, h2b⟩


/-- `__setitem__` body refinement, for any rehash routine satisfying the
rehash contract. -/
theorem setItemCore_spec {V : Type} (reh : Table V → Except Err (Table V))
    (hreh : ∀ u mu u1, Rep u mu → reh u = .ok u1 →
      Rep u1 mu ∧ Good u1 ∧ u.sizeIndex < u1.sizeIndex ∧ u1.sizes = u.sizes)
    {t : Table V} {m : String → Option V} {k : String} {v : V} {t1 : Table V}
    (hRep : Rep t m) (hGood : Good t) (h : setItemCore reh t k v = .ok t1) :
    Rep t1 (fun q => if q = k then some v else m q) ∧ Good t1 ∧
      t1.sizes = t.sizes ∧ t.sizeIndex ≤ t1.sizeIndex ∧
      (t1.sizeIndex ≠ t.sizeIndex ↔
        (m k = none ∧ 3 * (t.length + 2) > 2 * tableSize t ∧
          t.sizeIndex < t.sizes.length - 1)) ∧
      (m k ≠ none → t1.length = t.length ∧ t1.sizeIndex = t.sizeIndex) := by
  cases hmk : m k with
  | some w =>
    obtain ⟨i, hp, hi⟩ := probe_present hRep hmk true
    simp only [setItemCore, hp] at h
    rw [hi] at h
    simp only [Bool.false_eq_true, if_false, tableSize, List.length_set] at h
    have hGoodb : ¬(3 * (t.length + 1) > 2 * t.array.length ∧
        t.sizeIndex < t.sizes.length - 1) := hGood
    rw [if_neg hGoodb] at h
    injection h with h
    subst h
    have hRep1 := rep_update hRep (v := v) hi
    refine ⟨hRep1, ?_, rfl, Nat.le_refl _, ?_, ?_⟩
    · intro hc
      obtain ⟨h1, h2⟩ := hc
      have h1b : 3 * (t.length + 1) > 2 * (t.array.set i (Slot.occupied k v)).length := h1
      rw [List.length_set] at h1b
      exact hGood ⟨h1b, h2⟩
    · constructor
      · intro hc
        exact absurd rfl hc
      · intro hc
        exact Option.noConfusion hc.1
    · intro _
      exact ⟨rfl, rfl⟩
  | none =>
    by_cases hne : ∃ i, i < tableSize t ∧ t.array.getD i Slot.empty = Slot.empty
    · obtain ⟨p, n, hp, hslot, hn, hpn, hpre⟩ := probe_absent_insert hRep hmk hne
      simp only [setItemCore, hp] at h
      have hRep1 := rep_newkey hRep hmk hslot hn hpn hpre (v := v)
      rcases hslot with hs | hs <;> rw [hs] at h <;>
        simp only [if_true, tableSize, List.length_set] at h <;>
      · by_cases hC : 3 * (t.length + 1 + 1) > 2 * t.array.length ∧
            t.sizeIndex < t.sizes.length - 1
        · rw [if_pos hC] at h
          obtain ⟨hRep2, hGood2, hlt2, hsz2⟩ := hreh _ _ _ hRep1 h
          have hlt2b : t.sizeIndex < t1.sizeIndex := hlt2
          have hsz2b : t1.sizes = t.sizes := hsz2
          refine ⟨hRep2, hGood2, hsz2b, by omega, ?_, ?_⟩
          · constructor
            · intro _
              refine ⟨rfl, ?_, hC.2⟩
              have hb : 2 * tableSize t = 2 * t.array.length := rfl
              have hc1 := hC.1
              omega
            · intro _
              omega
          · intro hc
            exact absurd rfl hc
        · rw [if_neg hC] at h
          injection h with h
          subst h
          refine ⟨hRep1, ?_, rfl, Nat.le_refl _, ?_, ?_⟩
          · intro hc
            obtain ⟨h1, h2⟩ := hc
            have h1b : 3 * ((t.length + 1) + 1) >
                2 * (t.array.set p (Slot.occupied k v)).length := h1
            rw [List.length_set] at h1b
            exact hC ⟨by omega, h2⟩
          · constructor
            · intro hc
              exact absurd rfl hc
            · intro hc
              refine absurd ⟨?_, hc.2.2⟩ hC
              have hb : 2 * tableSize t = 2 * t.array.length := rfl
              have hc1 := hc.2.1
              omega
          · intro hc
            exact absurd rfl hc
    · have hfull := probe_absent_insert_full hRep hmk (by
        intro i hi hc
        exact hne ⟨i, hi, hc⟩)
      simp [setItemCore, hfull] at h

theorem ok_bind {E A B : Type} (a : A) (f : A → Except E B) :
    (Except.ok a : Except E A) >>= f = f a := rfl

theorem error_bind {E A B : Type} (e : E) (f : A → Except E B) :
    (Except.error e : Except E A) >>= f = Except.error e := rfl

/-- Reinserting a suffix of slots into an accumulator table during
`__rehash`, tracking the abstract map. -/
theorem fold_reinsert {V : Type} (reh : Table V → Except Err (Table V))
    (hreh : ∀ u mu u1, Rep u mu → reh u = .ok u1 →
      Rep u1 mu ∧ Good u1 ∧ u.sizeIndex < u1.sizeIndex ∧ u1.sizes = u.sizes)
    (m : String → Option V) :
    ∀ (rest : List (Slot V)) (acc : Table V) (macc : String → Option V),
    Rep acc macc → Good acc →
    (∀ q w, macc q = some w → m q = some w) →
    (∀ i q w, rest.getD i Slot.empty = Slot.occupied q w → m q = some w) →
    (∀ q, macc q ≠ none → ∀ i, slotKey (rest.getD i Slot.empty) ≠ some q) →
    (∀ i j q, slotKey (rest.getD i Slot.empty) = some q →
      slotKey (rest.getD j Slot.empty) = some q → i = j) →
    (∀ q, m q ≠ none → macc q = m q ∨ ∃ i, slotKey (rest.getD i Slot.empty) = some q) →
    ∀ t1, rest.foldlM (reinsertStep reh) acc = .ok t1 →
    Rep t1 m ∧ Good t1 ∧ acc.sizeIndex ≤ t1.sizeIndex ∧ t1.sizes = acc.sizes
  | [], acc, macc, hRep, hGood, hsub, _, _, _, hcover, t1, h => by
    rw [List.foldlM_nil] at h
    injection h with h
    subst h
    have hmeq : macc = m := by
      funext q
      cases hq : m q with
      | none =>
        cases hq2 : macc q with
        | none => rfl
        | some w =>
          have := hsub q w hq2
          rw [hq] at this
          cases this
      | some w =>
        rcases hcover q (by rw [hq]; exact fun hc => Option.noConfusion hc) with hl | ⟨i, hi⟩
        · rw [hl, hq]
        · rw [getD_oob (by simp)] at hi
          cases hi
    rw [← hmeq]
    exact ⟨hRep, hGood, Nat.le_refl _, rfl⟩
  | s :: rest, acc, macc, hRep, hGood, hsub, hrest, hdisj, hnodup, hcover, t1, h => by
    rw [List.foldlM_cons] at h
    have hshift : ∀ i, rest.getD i Slot.empty = (s :: rest).getD (i + 1) Slot.empty :=
      fun i => (List.getD_cons_succ).symm
    cases s with
    | empty =>
      simp only [reinsertStep, pure_bind] at h
      refine fold_reinsert reh hreh m rest acc macc hRep hGood hsub
        (fun i q w hi => hrest (i + 1) q w (by rw [← hshift]; exact hi))
        (fun q hq i => by rw [hshift]; exact hdisj q hq (i + 1))
        (fun i j q hi hj => by
          have := hnodup (i + 1) (j + 1) q (by rw [← hshift]; exact hi)
            (by rw [← hshift]; exact hj)
          omega)
        (fun q hq => by
          rcases hcover q hq with hl | ⟨i, hi⟩
          · exact Or.inl hl
          · rcases i with _ | i
            · rw [List.getD_cons_zero] at hi
              simp [slotKey] at hi
            · exact Or.inr ⟨i, by rw [hshift]; exact hi⟩)
        t1 h
    | deleted =>
      simp only [reinsertStep, pure_bind] at h
      refine fold_reinsert reh hreh m rest acc macc hRep hGood hsub
        (fun i q w hi => hrest (i + 1) q w (by rw [← hshift]; exact hi))
        (fun q hq i => by rw [hshift]; exact hdisj q hq (i + 1))
        (fun i j q hi hj => by
          have := hnodup (i + 1) (j + 1) q (by rw [← hshift]; exact hi)
            (by rw [← hshift]; exact hj)
          omega)
        (fun q hq => by
          rcases hcover q hq with hl | ⟨i, hi⟩
          · exact Or.inl hl
          · rcases i with _ | i
            · rw [List.getD_cons_zero] at hi
              simp [slotKey] at hi
            · exact Or.inr ⟨i, by rw [hshift]; exact hi⟩)
        t1 h
    | occupied k0 w0 =>
      have hm0 : m k0 = some w0 := hrest 0 k0 w0 (by rw [List.getD_cons_zero])
      simp only [reinsertStep] at h
      cases hstep : setItemCore reh acc k0 w0 with
      | error e =>
        rw [hstep, error_bind] at h
        cases h
      | ok acc1 =>
        rw [hstep, ok_bind] at h
        obtain ⟨hRep1, hGood1, _, hidx1, _, _⟩ :=
          setItemCore_spec reh hreh hRep hGood hstep
        have hsizes1 : acc1.sizes = acc.sizes :=
          (setItemCore_spec reh hreh hRep hGood hstep).2.2.1
        have hres := fold_reinsert reh hreh m rest acc1
          (fun q => if q = k0 then some w0 else macc q) hRep1 hGood1
          (fun q w hq => by
            by_cases hqk : q = k0
            · subst hqk
              have hq2 : some w0 = some w := by simpa using hq
              injection hq2 with hq2
              subst hq2
              exact hm0
            · have hq2 : macc q = some w := by simpa [hqk] using hq
              exact hsub q w hq2)
          (fun i q w hi => hrest (i + 1) q w (by rw [← hshift]; exact hi))
          (fun q hq i => by
            by_cases hqk : q = k0
            · subst hqk
              intro hc
              have := hnodup 0 (i + 1) q (by rw [List.getD_cons_zero]; rfl)
                (by rw [← hshift]; exact hc)
              omega
            · have hq2 : macc q ≠ none := by simpa [hqk] using hq
              rw [hshift]
              exact hdisj q hq2 (i + 1))
          (fun i j q hi hj => by
            have := hnodup (i + 1) (j + 1) q (by rw [← hshift]; exact hi)
              (by rw [← hshift]; exact hj)
            omega)
          (fun q hq => by
            by_cases hqk : q = k0
            · subst hqk
              exact Or.inl (by simp [hm0])
            · rcases hcover q hq with hl | ⟨i, hi⟩
              · exact Or.inl (by simpa [hqk] using hl)
              · rcases i with _ | i
                · rw [List.getD_cons_zero] at hi
                  simp only [slotKey, Option.some.injEq] at hi
                  exact absurd hi.symm hqk
                · exact Or.inr ⟨i, by rw [hshift]; exact hi⟩)
          t1 h
        obtain ⟨hRepF, hGoodF, hidxF, hsizesF⟩ := hres
        refine ⟨hRepF, hGoodF, by omega, by rw [hsizesF, hsizes1]⟩

/-- `__rehash` refinement: a successful rehash preserves the abstract map,
restores the load guard, and strictly advances the size index. -/
theorem rehashF_spec {V : Type} :
    ∀ (fuel : Nat) (u : Table V) (mu : String → Option V) (u1 : Table V),
    Rep u mu → rehashF fuel u = .ok u1 →
    Rep u1 mu ∧ Good u1 ∧ u.sizeIndex < u1.sizeIndex ∧ u1.sizes = u.sizes
  | 0, u, mu, u1, _, h => by
    simp [rehashF] at h
  | fuel + 1, u, mu, u1, hRep, h => by
    simp only [rehashF] at h
    by_cases hidx : u.sizes.length ≤ u.sizeIndex + 1
    · rw [if_pos hidx] at h
      cases h
    · rw [if_neg hidx] at h
      have hidx2 : u.sizeIndex + 1 < u.sizes.length := by omega
      have hts0 : 2 ≤ u.sizes.getD (u.sizeIndex + 1) 0 := by
        refine hRep.inv.sizesOK _ ?_
        rw [List.getD_eq_getElem?_getD, List.getElem?_eq_getElem hidx2]
        exact List.getElem_mem _
      have hRep0 : Rep (⟨u.sizes, u.sizeIndex + 1,
          List.replicate (u.sizes.getD (u.sizeIndex + 1) 0) Slot.empty, 0⟩ : Table V)
          (fun _ => none) := by
        refine ⟨⟨hRep.inv.sizesOK, hidx2, ?_, ?_, ?_, ?_⟩, ?_⟩
        · show (List.replicate (u.sizes.getD (u.sizeIndex + 1) 0)
            (Slot.empty : Slot V)).length = u.sizes.getD (u.sizeIndex + 1) 0
          rw [List.length_replicate]
        · show 0 = occCount (List.replicate (u.sizes.getD (u.sizeIndex + 1) 0) Slot.empty)
          rw [occCount, List.countP_eq_zero.mpr]
          intro a ha
          rw [List.eq_of_mem_replicate ha]
          simp
        · intro a b k2 ha
          rw [getD_replicate] at ha
          simp [slotKey] at ha
        · intro i k2 v2 hi
          rw [getD_replicate] at hi
          cases hi
        · intro k2 v2
          constructor
          · intro hc
            cases hc
          · intro ⟨i, hi⟩
            rw [getD_replicate] at hi
            cases hi
      have hGood0 : Good (⟨u.sizes, u.sizeIndex + 1,
          List.replicate (u.sizes.getD (u.sizeIndex + 1) 0) Slot.empty, 0⟩ : Table V) := by
        intro hc
        obtain ⟨h1, _⟩ := hc
        have h1b : 3 * (0 + 1) >
            2 * (List.replicate (u.sizes.getD (u.sizeIndex + 1) 0)
              (Slot.empty : Slot V)).length := h1
        rw [List.length_replicate] at h1b
        omega
      obtain ⟨hRepF, hGoodF, hidxF, hsizesF⟩ :=
        fold_reinsert (rehashF fuel) (rehashF_spec fuel) mu u.array _ _ hRep0 hGood0
          (fun q w hq => by cases hq)
          (fun i q w hi => (hRep.sound q w).mpr ⟨i, hi⟩)
          (fun q hq => absurd rfl hq)
          (fun i j q hi hj => hRep.inv.uniq i j q hi hj)
          (fun q hq => by
            cases hmq : mu q with
            | none => exact absurd hmq hq
            | some w =>
              obtain ⟨i, hi⟩ := (hRep.sound q w).mp hmq
              exact Or.inr ⟨i, by rw [hi]; rfl⟩)
          u1 h
      have hidxF2 : u.sizeIndex + 1 ≤ u1.sizeIndex := hidxF
      have hsizesF2 : u1.sizes = u.sizes := hsizesF
      exact ⟨hRepF, hGoodF, by omega, hsizesF2⟩

/-- `__setitem__` refinement. -/
theorem setItem_spec {V : Type} {t : Table V} {m : String → Option V}
    {k : String} {v : V} {t1 : Table V}
    (hRep : Rep t m) (hGood : Good t) (h : setItem t k v = .ok t1) :
    Rep t1 (fun q => if q = k then some v else m q) ∧ Good t1 ∧
      t1.sizes = t.sizes ∧ t.sizeIndex ≤ t1.sizeIndex ∧
      (t1.sizeIndex ≠ t.sizeIndex ↔
        (m k = none ∧ 3 * (t.length + 2) > 2 * tableSize t ∧
          t.sizeIndex < t.sizes.length - 1)) ∧
      (m k ≠ none → t1.length = t.length ∧ t1.sizeIndex = t.sizeIndex) :=
  setItemCore_spec (rehashF t.sizes.length)
    (fun u mu u1 hRepu hu => rehashF_spec t.sizes.length u mu u1 hRepu hu)
    hRep hGood h

/-- Running a sequence of `set`/`delete` operations from a represented state
preserves representation of the abstract map. -/
theorem runOps_rep {V : Type} :
    ∀ (ops : List (Op V)) (t : Table V) (m : String → Option V) (t1 : Table V),
    Rep t m → Good t → runOps t ops = .ok t1 →
    Rep t1 (applyOps m ops) ∧ Good t1
  | [], t, m, t1, hRep, hGood, h => by
    simp only [runOps] at h
    injection h with h
    subst h
    exact ⟨hRep, hGood⟩
  | Op.set k v :: rest, t, m, t1, hRep, hGood, h => by
    simp only [runOps] at h
    cases hstep : setItem t k v with
    | error e =>
      rw [hstep] at h
      cases h
    | ok t2 =>
      rw [hstep] at h
      obtain ⟨hRep2, hGood2, _⟩ := setItem_spec hRep hGood hstep
      exact runOps_rep rest t2 _ t1 hRep2 hGood2 h
  | Op.del k :: rest, t, m, t1, hRep, hGood, h => by
    simp only [runOps] at h
    cases hmk : m k with
    | none =>
      rw [delItem_absent hRep hmk] at h
      cases h
    | some w =>
      obtain ⟨i, hi, hdel⟩ := delItem_present hRep hmk
      rw [hdel] at h
      exact runOps_rep rest _ _ t1 (rep_delete hRep hi) (good_delete hGood i) h

/-- The freshly constructed table represents the empty map. -/
theorem rep_initial (V : Type) : Rep (initial V) (fun _ => none) := by
  refine ⟨⟨?_, ?_, ?_, ?_, ?_, ?_⟩, ?_⟩
  · intro s hs
    have : ∀ s2 ∈ TABLE_SIZES, 2 ≤ s2 := by decide
    exact this s hs
  · show 0 < TABLE_SIZES.length
    decide
  · rfl
  · show 0 = occCount (List.replicate 5 Slot.empty)
    rfl
  · intro a b k2 ha
    rw [show (initial V).array = List.replicate 5 Slot.empty from rfl, getD_replicate] at ha
    simp [slotKey] at ha
  · intro i k2 v2 hi
    rw [show (initial V).array = List.replicate 5 Slot.empty from rfl, getD_replicate] at hi
    cases hi
  · intro k2 v2
    constructor
    · intro hc
      cases hc
    · intro ⟨i, hi⟩
      rw [show (initial V).array = List.replicate 5 Slot.empty from rfl, getD_replicate] at hi
      cases hi

theorem good_initial (V : Type) : Good (initial V) := by
  intro hc
  obtain ⟨h1, _⟩ := hc
  have h1b : 3 * (0 + 1) > 2 * (List.replicate 5 (Slot.empty : Slot V)).length := h1
  rw [List.length_replicate] at h1b
  omega

theorem probe_lookup_error_top {V : Type} (t : Table V) (k : String) (e : Err)
    (h : hashyProbe t k false = .error e) : e = .keyNotFound :=
  probeAux_lookup_error t.array k _ _ _ _ e h

end LazyDoubleTable

namespace HashyDateTable

/-- Errors of the date hash: `IndexError` from `key[4]`, `ValueError` from
`int(...)` on an empty or non-digit slice (the model parses non-negative
digit strings; Python would also accept sign characters, an inessential
difference for the inputs considered here), `ZeroDivisionError` from
`% 0` when the capacity is below 366, and `IndexError` from indexing the
12-entry month tuple when the parsed month exceeds 13. -/
inductive DErr where
  | indexError : DErr
  | valueError : DErr
  | zeroDivisionError : DErr
deriving DecidableEq, Repr

/-- The numeric value of a decimal digit character, if it is one. -/
def digitVal? (c : Char) : Option Nat :=
  if c.isDigit then some (c.toNat - 48) else none

/-- Accumulate `int(...)` over a digit string. -/
def parseDigits : List Char → Nat → Option Nat
  | [], acc => some acc
  | c :: cs, acc =>
    match digitVal? c with
    | some d => parseDigits cs (10 * acc + d)
    | none => none

/-- Python `int(s)` for the slices taken by `hash`: fails on the empty
string and on non-digit characters. -/
def pyInt (cs : List Char) : Except DErr Nat :=
  match cs with
  | [] => .error .valueError
  | _ =>
    match parseDigits cs 0 with
    | some n => .ok n
    | none => .error .valueError

/-- Python slicing `key[a:b]` (truncating beyond the end of the string). -/
def slice (cs : List Char) (a b : Nat) : List Char := (cs.drop a).take (b - a)

/-- `is_leap_year`: the 400 / 100 / 4 rule, as the chained conditionals of
the source. -/
def is_leap_year (year : Nat) : Bool :=
  if year % 400 = 0 then true
  else if year % 100 = 0 then false
  else if year % 4 = 0 then true
  else false

/-- The 12-entry `days_per_month` tuple chosen by `total_days_of_year`. -/
def days_per_month (year : Nat) : List Nat :=
  if is_leap_year year then [31, 29, 31, 30, 31, 30, 31, 31, 30, 31, 30, 31]
  else [31, 28, 31, 30, 31, 30, 31, 31, 30, 31, 30, 31]

/-- `total_days_of_year`: the day number within the year.  The source loop
`for m in range(month - 1)` indexes the 12-entry tuple, so a parsed month
of 14 or more raises `IndexError`; below that the loop sums the first
`month - 1` entries. -/
def total_days_of_year (year month day : Nat) : Except DErr Nat :=
  if 14 ≤ month then .error .indexError
  else .ok (((days_per_month year).take (month - 1)).sum + day)

/-- `HashyDateTable.hash`.  Parse positionally by the separator test at
offset 4, count the day of the year, and combine as
`((days_of_year - 1) * c + year % c) % table_size` with
`c = table_size // 366`.  The arithmetic is over `Int` (Python integers
with floor `%`, which for the positive moduli here equals the Euclidean
`%` used by Lean `Int`). -/
def hash (tableSize : Nat) (key : String) : Except DErr Int :=
  let cs := key.data
  match cs.get? 4 with
  | none => .error .indexError
  | some c4 =>
    (if c4 = '-' ∨ c4 = '/' then do
      let year ← pyInt (slice cs 0 4)
      let month ← pyInt (slice cs 5 7)
      let day ← pyInt (slice cs 8 10)
      pure (year, month, day)
    else do
      let day ← pyInt (slice cs 0 2)
      let month ← pyInt (slice cs 3 5)
      let year ← pyInt (slice cs 6 10)
      pure (year, month, day)) >>= fun ymd =>
    match ymd with
    | (year, month, day) =>
      (total_days_of_year year month day) >>= fun days =>
      let c : Nat := tableSize / 366
      if c = 0 then .error .zeroDivisionError
      else .ok ((((days : Int) - 1) * (c : Int) + (year : Int) % (c : Int)) % (tableSize : Int))

/-- Written from the spec: divisible by 400 → leap; else divisible by
100 → not leap; else divisible by 4 → leap. -/
def spec_is_leap (y : Nat) : Bool :=
  y % 400 = 0 || (!(y % 100 = 0) && y % 4 = 0)

/-- Written from the spec: the 1-based day-of-year under the spec's
leap-year rule. -/
def spec_day_of_year (y m d : Nat) : Nat :=
  (List.range (m - 1)).foldl
    (fun acc i => acc +
      (if i + 1 = 2 then (if spec_is_leap y then 29 else 28)
       else if i + 1 = 4 ∨ i + 1 = 6 ∨ i + 1 = 9 ∨ i + 1 = 11 then 30 else 31)) 0 + d

/-- Written from the spec: with `c = capacity / 366`,
`hash = ((day_of_year - 1) * c + (year mod c)) mod capacity`. -/
def spec_date_hash (cap y m d : Nat) : Int :=
  (((spec_day_of_year y m d : Int) - 1) * ((cap / 366 : Nat) : Int) +
    (y : Int) % ((cap / 366 : Nat) : Int)) % (cap : Int)

theorem leap_agree (y : Nat) : is_leap_year y = spec_is_leap y := by
  unfold is_leap_year spec_is_leap
  by_cases h4 : y % 400 = 0 <;> by_cases h1 : y % 100 = 0 <;> by_cases h2 : y % 4 = 0 <;>
    simp [h4, h1, h2]

theorem days_agree (y m d : Nat) (hm1 : 1 ≤ m) (hm12 : m ≤ 12) :
    ((days_per_month y).take (m - 1)).sum + d = spec_day_of_year y m d := by
  unfold days_per_month spec_day_of_year
  rw [← leap_agree]
  interval_cases m <;> cases hl : is_leap_year y <;>
    simp [hl, List.range_succ]

end HashyDateTable

namespace HashyDateTable

theorem pyInt_two (a b : Char) (ha : a.isDigit = true) (hb : b.isDigit = true) (n : Nat)
    (hn : n = 10 * (a.toNat - 48) + (b.toNat - 48)) :
    pyInt [a, b] = .ok n := by
  simp [pyInt, parseDigits, digitVal?, ha, hb]
  omega

theorem pyInt_four (a b c d : Char) (ha : a.isDigit = true) (hb : b.isDigit = true)
    (hc : c.isDigit = true) (hd : d.isDigit = true) (n : Nat)
    (hn : n = 1000 * (a.toNat - 48) + 100 * (b.toNat - 48) + 10 * (c.toNat - 48) +
      (d.toNat - 48)) :
    pyInt [a, b, c, d] = .ok n := by
  simp [pyInt, parseDigits, digitVal?, ha, hb, hc, hd]
  omega

/-- Parsing and hashing a well-formed `YYYY-MM-DD` / `YYYY/MM/DD` key
agrees with the spec formula. -/
theorem hash_formatA (cap : Nat) (hcap : 366 ≤ cap) (key : String)
    (c0 c1 c2 c3 c4 c5 c6 c7 c8 c9 : Char) (y m d : Nat)
    (hdata : key.data = [c0, c1, c2, c3, c4, c5, c6, c7, c8, c9])
    (hsep : c4 = '-' ∨ c4 = '/')
    (h0 : c0.isDigit = true) (h1 : c1.isDigit = true) (h2 : c2.isDigit = true)
    (h3 : c3.isDigit = true) (h5 : c5.isDigit = true) (h6 : c6.isDigit = true)
    (h8 : c8.isDigit = true) (h9 : c9.isDigit = true)
    (hy : y = 1000 * (c0.toNat - 48) + 100 * (c1.toNat - 48) + 10 * (c2.toNat - 48) +
      (c3.toNat - 48))
    (hm : m = 10 * (c5.toNat - 48) + (c6.toNat - 48))
    (hd : d = 10 * (c8.toNat - 48) + (c9.toNat - 48))
    (hm1 : 1 ≤ m) (hm12 : m ≤ 12) :
    hash cap key = .ok (spec_date_hash cap y m d) := by
  unfold hash
  rw [hdata]
  have hget : [c0, c1, c2, c3, c4, c5, c6, c7, c8, c9].get? 4 = some c4 := rfl
  simp only [hget]
  have hs0 : slice [c0, c1, c2, c3, c4, c5, c6, c7, c8, c9] 0 4 = [c0, c1, c2, c3] := rfl
  have hs1 : slice [c0, c1, c2, c3, c4, c5, c6, c7, c8, c9] 5 7 = [c5, c6] := rfl
  have hs2 : slice [c0, c1, c2, c3, c4, c5, c6, c7, c8, c9] 8 10 = [c8, c9] := rfl
  rw [if_pos hsep]
  simp only [bind, Except.bind, hs0, hs1, hs2,
    pyInt_four c0 c1 c2 c3 h0 h1 h2 h3 y hy,
    pyInt_two c5 c6 h5 h6 m hm,
    pyInt_two c8 c9 h8 h9 d hd, pure]
  simp only [Except.pure]
  rw [show total_days_of_year y m d =
      .ok (((days_per_month y).take (m - 1)).sum + d) from if_neg (by omega)]
  have hcpos : 0 < cap / 366 := Nat.div_pos hcap (by omega)
  rw [days_agree y m d hm1 hm12]
  have hne : ¬(cap / 366 = 0) := by omega
  simp [hne, spec_date_hash]

/-- Parsing and hashing a well-formed `DD-MM-YYYY` / `DD/MM/YYYY` key
agrees with the spec formula. -/
theorem hash_formatB (cap : Nat) (hcap : 366 ≤ cap) (key : String)
    (c0 c1 c2 c3 c4 c5 c6 c7 c8 c9 : Char) (y m d : Nat)
    (hdata : key.data = [c0, c1, c2, c3, c4, c5, c6, c7, c8, c9])
    (hsep : ¬(c4 = '-' ∨ c4 = '/'))
    (h0 : c0.isDigit = true) (h1 : c1.isDigit = true) (h3 : c3.isDigit = true)
    (h4 : c4.isDigit = true) (h6 : c6.isDigit = true) (h7 : c7.isDigit = true)
    (h8 : c8.isDigit = true) (h9 : c9.isDigit = true)
    (hy : y = 1000 * (c6.toNat - 48) + 100 * (c7.toNat - 48) + 10 * (c8.toNat - 48) +
      (c9.toNat - 48))
    (hm : m = 10 * (c3.toNat - 48) + (c4.toNat - 48))
    (hd : d = 10 * (c0.toNat - 48) + (c1.toNat - 48))
    (hm1 : 1 ≤ m) (hm12 : m ≤ 12) :
    hash cap key = .ok (spec_date_hash cap y m d) := by
  unfold hash
  rw [hdata]
  have hget : [c0, c1, c2, c3, c4, c5, c6, c7, c8, c9].get? 4 = some c4 := rfl
  simp only [hget]
  have hs0 : slice [c0, c1, c2, c3, c4, c5, c6, c7, c8, c9] 0 2 = [c0, c1] := rfl
  have hs1 : slice [c0, c1, c2, c3, c4, c5, c6, c7, c8, c9] 3 5 = [c3, c4] := rfl
  have hs2 : slice [c0, c1, c2, c3, c4, c5, c6, c7, c8, c9] 6 10 = [c6, c7, c8, c9] := rfl
  rw [if_neg hsep]
  simp only [bind, Except.bind, hs0, hs1, hs2,
    pyInt_four c6 c7 c8 c9 h6 h7 h8 h9 y hy,
    pyInt_two c3 c4 h3 h4 m hm,
    pyInt_two c0 c1 h0 h1 d hd, pure]
  simp only [Except.pure]
  rw [show total_days_of_year y m d =
      .ok (((days_per_month y).take (m - 1)).sum + d) from if_neg (by omega)]
  have hcpos : 0 < cap / 366 := Nat.div_pos hcap (by omega)
  rw [days_agree y m d hm1 hm12]
  have hne : ¬(cap / 366 = 0) := by omega
  simp [hne, spec_date_hash]

end HashyDateTable

namespace HashyDateTable

theorem bind_error_chain {A B : Type} (x : Except DErr A) (f : A → Except DErr B)
    (hf : ∀ a, ∃ e, f a = .error e) : ∃ e, x >>= f = .error e := by
  cases x with
  | error e => exact ⟨e, rfl⟩
  | ok a =>
    obtain ⟨e, he⟩ := hf a
    exact ⟨e, by rw [LazyDoubleTable.ok_bind, he]⟩

theorem bind_error_left {A B : Type} (x : Except DErr A) (f : A → Except DErr B)
    (hx : ∃ e, x = .error e) : ∃ e, x >>= f = .error e := by
  obtain ⟨e, he⟩ := hx
  exact ⟨e, by rw [he, LazyDoubleTable.error_bind]⟩

/-- Any key of length at most 6 makes `hash` raise: either `key[4]` raises
`IndexError`, or one of the `int(...)` calls receives an empty or malformed
slice and raises `ValueError`. -/
theorem hash_short_key_fails (cap : Nat) (key : String) (h : key.length ≤ 6) :
    ∃ e, hash cap key = .error e := by
  have hlen : key.data.length ≤ 6 := h
  unfold hash
  cases hget : key.data.get? 4 with
  | none =>
    refine ⟨.indexError, ?_⟩
    simp only [hget]
  | some c4 =>
    simp only [hget]
    apply bind_error_left
    by_cases hsep : c4 = '-' ∨ c4 = '/'
    · rw [if_pos hsep]
      apply bind_error_chain
      intro year
      apply bind_error_chain
      intro month
      have hsl : slice key.data 8 10 = [] := by
        unfold slice
        rw [List.drop_eq_nil_of_le (by omega), List.take_nil]
      rw [hsl]
      exact ⟨.valueError, rfl⟩
    · rw [if_neg hsep]
      apply bind_error_chain
      intro day
      apply bind_error_chain
      intro month
      have hsl : slice key.data 6 10 = [] := by
        unfold slice
        rw [List.drop_eq_nil_of_le (by omega), List.take_nil]
      rw [hsl]
      exact ⟨.valueError, rfl⟩

end HashyDateTable

/-! ### Concrete states used by the claims -/

namespace LazyDoubleTable

/-- A capacity-5 table whose slots are four occupied entries and one
tombstone: no slot is empty. -/
def oneTombFullTab : Table Nat :=
  ⟨TABLE_SIZES, 0,
    [Slot.occupied "k0" 0, Slot.occupied "k1" 0, Slot.occupied "k2" 0,
     Slot.occupied "k3" 0, Slot.deleted], 4⟩

/-- A capacity-5 table with every slot occupied. -/
def fullTab : Table Nat :=
  ⟨TABLE_SIZES, 0,
    [Slot.occupied "k0" 0, Slot.occupied "k1" 0, Slot.occupied "k2" 0,
     Slot.occupied "k3" 0, Slot.occupied "k4" 0], 5⟩

/-- The state after `set "a" 1; set "b" 2` from a fresh default table. -/
def twoEntryTab : Table Nat :=
  ⟨TABLE_SIZES, 0,
    [Slot.empty, Slot.empty, Slot.occupied "a" 1, Slot.occupied "b" 2, Slot.empty], 2⟩

/-- The state after additionally running `set "c" 3`: the insert triggers a
rebuild into capacity 13. -/
def grownTab : Table Nat :=
  ⟨TABLE_SIZES, 1,
    [Slot.empty, Slot.empty, Slot.empty, Slot.empty, Slot.empty, Slot.empty,
     Slot.occupied "a" 1, Slot.occupied "b" 2, Slot.occupied "c" 3,
     Slot.empty, Slot.empty, Slot.empty, Slot.empty], 3⟩

/-- The state after `set "a" 1; set "b" 2; del "a"`. -/
def oneTombTab : Table Nat :=
  ⟨TABLE_SIZES, 0,
    [Slot.empty, Slot.empty, Slot.deleted, Slot.occupied "b" 2, Slot.empty], 1⟩

/-- A trace of sets and deletes that leaves every capacity-5 slot a
tombstone. -/
def allTombOps : List (Op Nat) :=
  [Op.set "a" 1, Op.set "b" 2, Op.del "a", Op.del "b",
   Op.set "c" 3, Op.set "d" 4, Op.del "c", Op.del "d",
   Op.set "e" 5, Op.del "e"]

/-- The state `allTombOps` reaches: all five slots deleted, no live entry. -/
def allTombTab : Table Nat :=
  ⟨TABLE_SIZES, 0,
    [Slot.deleted, Slot.deleted, Slot.deleted, Slot.deleted, Slot.deleted], 0⟩

theorem delItem_sizeIndex {V : Type} (t : Table V) (k : String) (t2 : Table V)
    (h : delItem t k = .ok t2) : t2.sizeIndex = t.sizeIndex := by
  unfold delItem at h
  cases hp : hashyProbe t k false with
  | error e =>
    rw [hp] at h
    cases h
  | ok pos =>
    rw [hp] at h
    injection h with h
    subst h
    rfl

/-- Written from the spec: the growth trigger compares the count *after*
the new entry is counted against `capacity * 2/3` (embedded as
`3 * countAfter > 2 * capacity`). -/
def spec_grow_threshold (countAfter capacity : Nat) : Prop :=
  3 * countAfter > 2 * capacity

instance (countAfter capacity : Nat) : Decidable (spec_grow_threshold countAfter capacity) := by
  unfold spec_grow_threshold
  infer_instance

end LazyDoubleTable

/-! ### The claims -/

/-- C1 (counterexample): in a table whose five slots are four occupied
entries and one tombstone, the insert-mode probe for the absent key `"x"`
raises `RuntimeError("Table is full")` even though the tombstone at slot 4
lies on the probe path of `"x"` (it is probe position number 4), so the
claim that `Full` occurs only when neither an empty slot nor a tombstone
was encountered is false of the code. -/
theorem c1_counterexample :
    LazyDoubleTable.hashyProbe LazyDoubleTable.oneTombFullTab "x" true =
      .error .tableFull ∧
    LazyDoubleTable.oneTombFullTab.array.getD 4 LazyDoubleTable.Slot.empty =
      LazyDoubleTable.Slot.deleted ∧
    LazyDoubleTable.probePos LazyDoubleTable.oneTombFullTab "x" 4 = 4 ∧
    4 < LazyDoubleTable.tableSize LazyDoubleTable.oneTombFullTab :=
  ⟨rfl, rfl, rfl, by decide⟩

/-- C1 (amended): the insert-mode probe fails only with
`RuntimeError("Table is full")`, and only when, within one full cycle of
`table_size` probe positions, no empty slot and no occupied slot holding
the probed key was encountered.  (A tombstone on the path does not prevent
the failure: the probe only returns the remembered tombstone upon reaching
an empty slot.) -/
theorem c1_full_only_when_no_empty {V : Type} (t : LazyDoubleTable.Table V)
    (k : String) (e : LazyDoubleTable.Err)
    (h : LazyDoubleTable.hashyProbe t k true = .error e) :
    e = .tableFull ∧ ∀ n, n < LazyDoubleTable.tableSize t →
      t.array.getD (LazyDoubleTable.probePos t k n) LazyDoubleTable.Slot.empty ≠
        LazyDoubleTable.Slot.empty ∧
      ∀ v, t.array.getD (LazyDoubleTable.probePos t k n) LazyDoubleTable.Slot.empty ≠
        LazyDoubleTable.Slot.occupied k v := by
  rcases Nat.eq_zero_or_pos (LazyDoubleTable.tableSize t) with h0 | h0
  · constructor
    · have hz : LazyDoubleTable.hashyProbe t k true = .error .tableFull := by
        unfold LazyDoubleTable.hashyProbe
        rw [h0]
        rfl
      rw [hz] at h
      injection h with h
      exact h.symm
    · intro n hn
      omega
  · rw [LazyDoubleTable.hashyProbe_as_aux t k true h0] at h
    obtain ⟨he, hall⟩ := LazyDoubleTable.probeAux_insert_error t.array k
      (LazyDoubleTable.hash2 (LazyDoubleTable.tableSize t) k)
      (LazyDoubleTable.tableSize t - 0) (LazyDoubleTable.probePos t k 0) none e
      (LazyDoubleTable.probePos_lt t k 0 h0) h
    refine ⟨he, ?_⟩
    intro n hn
    have hres := hall n (by omega)
    have harith : (LazyDoubleTable.probePos t k 0 +
        n * LazyDoubleTable.hash2 (LazyDoubleTable.tableSize t) k) % t.array.length =
        LazyDoubleTable.probePos t k n := by
      rw [LazyDoubleTable.probePos_zero t k h0]
      rfl
    rw [harith] at hres
    exact hres

/-- C1 (witness): the amended theorem applied to a fully occupied
capacity-5 table and the absent key `"y"`. -/
theorem c1_witness :
    LazyDoubleTable.Err.tableFull = .tableFull ∧
    ∀ n, n < LazyDoubleTable.tableSize LazyDoubleTable.fullTab →
      LazyDoubleTable.fullTab.array.getD
        (LazyDoubleTable.probePos LazyDoubleTable.fullTab "y" n)
        LazyDoubleTable.Slot.empty ≠ LazyDoubleTable.Slot.empty ∧
      ∀ v, LazyDoubleTable.fullTab.array.getD
        (LazyDoubleTable.probePos LazyDoubleTable.fullTab "y" n)
        LazyDoubleTable.Slot.empty ≠ LazyDoubleTable.Slot.occupied "y" v :=
  c1_full_only_when_no_empty LazyDoubleTable.fullTab "y" .tableFull rfl

/-- C2 (code bug): from a fresh default table, `set "a" 1; set "b" 2;
del "a"` reaches a state with one live entry and one tombstone.  `keys()`
and `values()` iterate over every slot that `is not None`, which includes
the `DeletedItem` marker; subscripting it raises `TypeError`, so both
calls crash instead of returning the one live key/value — even though the
result array was allocated with exactly `count = 1` cells, showing the
intent was to emit only live entries (as `__rehash` does with its
`is not None and is not DeletedItem` test). -/
theorem c2_keys_values_crash_on_tombstone :
    LazyDoubleTable.runOps (LazyDoubleTable.initial Nat)
      [.set "a" 1, .set "b" 2, .del "a"] = .ok LazyDoubleTable.oneTombTab ∧
    LazyDoubleTable.oneTombTab.length = 1 ∧
    LazyDoubleTable.oneTombTab.array.getD 2 LazyDoubleTable.Slot.empty =
      LazyDoubleTable.Slot.deleted ∧
    LazyDoubleTable.keys LazyDoubleTable.oneTombTab = .error .typeErr ∧
    LazyDoubleTable.values LazyDoubleTable.oneTombTab = .error .typeErr :=
  ⟨rfl, rfl, rfl, rfl, rfl⟩

/-- C3 (counterexample): from a fresh capacity-5 table, the third insert
(`set "c" 3`) rebuilds into capacity 13 although the count after the new
entry is 3 and the spec's trigger `count_after > capacity * 2/3`
(3 · 3 > 2 · 5) does not hold: the code compares `count_after + 1`
(its `self.__length` is already incremented when it tests
`self.__length + 1 > self.table_size * 2 / 3`). -/
theorem c3_counterexample :
    LazyDoubleTable.runOps (LazyDoubleTable.initial Nat)
      [.set "a" 1, .set "b" 2] = .ok LazyDoubleTable.twoEntryTab ∧
    LazyDoubleTable.setItem LazyDoubleTable.twoEntryTab "c" 3 =
      .ok LazyDoubleTable.grownTab ∧
    LazyDoubleTable.twoEntryTab.sizeIndex = 0 ∧
    LazyDoubleTable.grownTab.sizeIndex = 1 ∧
    LazyDoubleTable.twoEntryTab.length = 2 ∧
    LazyDoubleTable.grownTab.length = 3 ∧
    LazyDoubleTable.tableSize LazyDoubleTable.twoEntryTab = 5 ∧
    ¬ LazyDoubleTable.spec_grow_threshold 3 5 :=
  ⟨rfl, rfl, rfl, rfl, rfl, rfl, rfl, by decide⟩

/-- C3 (amended): for a table satisfying the representation invariant and
the resting load guard, a successful `set` rebuilds into a larger capacity
(observable as a changed size index) if and only if the key was new
(absent from the abstract map), `3 * (count_after + 1) > 2 * capacity`
holds for the count after the new entry (the code tests the incremented
length plus one against `capacity * 2/3`), and a larger capacity exists in
the sequence; and `delete` never changes the size index. -/
theorem c3_grow_iff {V : Type} (t : LazyDoubleTable.Table V)
    (m : String → Option V) (k : String) (v : V)
    (t1 t2 : LazyDoubleTable.Table V)
    (hRep : LazyDoubleTable.Rep t m) (hGood : LazyDoubleTable.Good t) :
    (LazyDoubleTable.setItem t k v = .ok t1 →
      (t1.sizeIndex ≠ t.sizeIndex ↔
        (m k = none ∧ 3 * (t.length + 2) > 2 * LazyDoubleTable.tableSize t ∧
          t.sizeIndex < t.sizes.length - 1))) ∧
    (LazyDoubleTable.delItem t k = .ok t2 → t2.sizeIndex = t.sizeIndex) := by
  constructor
  · intro h
    exact (LazyDoubleTable.setItem_spec hRep hGood h).2.2.2.2.1
  · intro h
    exact LazyDoubleTable.delItem_sizeIndex t k t2 h

/-- C3 (witness): the amended equivalence applied to the state after two
inserts and the new key `"c"`, where the rebuild does occur, and to a
delete of `"a"`, which keeps the size index. -/
theorem c3_witness :
    LazyDoubleTable.grownTab.sizeIndex ≠ LazyDoubleTable.twoEntryTab.sizeIndex ∧
    LazyDoubleTable.oneTombTab.sizeIndex = LazyDoubleTable.twoEntryTab.sizeIndex := by
  have hrun := LazyDoubleTable.runOps_rep [.set "a" 1, .set "b" 2]
    (LazyDoubleTable.initial Nat) (fun _ => none) LazyDoubleTable.twoEntryTab
    (LazyDoubleTable.rep_initial Nat) (LazyDoubleTable.good_initial Nat) (by rfl)
  have h := c3_grow_iff LazyDoubleTable.twoEntryTab _ "c" 3
    LazyDoubleTable.grownTab LazyDoubleTable.oneTombTab hrun.1 hrun.2
  constructor
  · exact h.1 rfl |>.mpr ⟨rfl, by decide, by decide⟩
  · have h2 := c3_grow_iff LazyDoubleTable.twoEntryTab _ "a" 3
      LazyDoubleTable.grownTab LazyDoubleTable.oneTombTab hrun.1 hrun.2
    exact h2.2 rfl

/-- C4 (confirmed): (1) for every sequence of `set`/`delete` operations run
from a fresh default table without raising, a key whose last abstract
operation was a `set` (it was set and not deleted since) is returned by
`get` with the value of that last `set` — including across rebuilds, which
happen inside `set`; (2) re-`set`-ting a key already present updates its
value without changing `len()`. -/
theorem c4_round_trip {V : Type} :
    (∀ (ops : List (LazyDoubleTable.Op V)) (t1 : LazyDoubleTable.Table V)
      (k : String) (v : V),
      LazyDoubleTable.runOps (LazyDoubleTable.initial V) ops = .ok t1 →
      LazyDoubleTable.applyOps (fun _ => none) ops k = some v →
      LazyDoubleTable.getItem t1 k = .ok v) ∧
    (∀ (t : LazyDoubleTable.Table V) (m : String → Option V) (k : String)
      (w v : V) (t1 : LazyDoubleTable.Table V),
      LazyDoubleTable.Rep t m → LazyDoubleTable.Good t → m k = some w →
      LazyDoubleTable.setItem t k v = .ok t1 →
      t1.length = t.length ∧ LazyDoubleTable.getItem t1 k = .ok v) := by
  constructor
  · intro ops t1 k v hrun happ
    obtain ⟨hRep, _⟩ := LazyDoubleTable.runOps_rep ops (LazyDoubleTable.initial V)
      (fun _ => none) t1 (LazyDoubleTable.rep_initial V)
      (LazyDoubleTable.good_initial V) hrun
    exact LazyDoubleTable.getItem_present hRep happ
  · intro t m k w v t1 hRep hGood hk hset
    obtain ⟨hRep1, _, _, _, _, hlen⟩ := LazyDoubleTable.setItem_spec hRep hGood hset
    refine ⟨(hlen (by rw [hk]; exact fun hc => Option.noConfusion hc)).1, ?_⟩
    exact LazyDoubleTable.getItem_present hRep1 (by rw [if_pos rfl])

/-- C4 (witness): after `set "a" 1`, `get "a"` returns 1; re-setting
`"a"` to 7 keeps the length at 1 and `get "a"` then returns 7. -/
theorem c4_witness :
    LazyDoubleTable.getItem
      (⟨LazyDoubleTable.TABLE_SIZES, 0,
        [LazyDoubleTable.Slot.empty, LazyDoubleTable.Slot.empty,
         LazyDoubleTable.Slot.occupied "a" 1, LazyDoubleTable.Slot.empty,
         LazyDoubleTable.Slot.empty], 1⟩ : LazyDoubleTable.Table Nat) "a" = .ok 1 ∧
    ((⟨LazyDoubleTable.TABLE_SIZES, 0,
        [LazyDoubleTable.Slot.empty, LazyDoubleTable.Slot.empty,
         LazyDoubleTable.Slot.occupied "a" 7, LazyDoubleTable.Slot.empty,
         LazyDoubleTable.Slot.empty], 1⟩ : LazyDoubleTable.Table Nat).length =
      (⟨LazyDoubleTable.TABLE_SIZES, 0,
        [LazyDoubleTable.Slot.empty, LazyDoubleTable.Slot.empty,
         LazyDoubleTable.Slot.occupied "a" 1, LazyDoubleTable.Slot.empty,
         LazyDoubleTable.Slot.empty], 1⟩ : LazyDoubleTable.Table Nat).length ∧
      LazyDoubleTable.getItem
        (⟨LazyDoubleTable.TABLE_SIZES, 0,
          [LazyDoubleTable.Slot.empty, LazyDoubleTable.Slot.empty,
           LazyDoubleTable.Slot.occupied "a" 7, LazyDoubleTable.Slot.empty,
           LazyDoubleTable.Slot.empty], 1⟩ : LazyDoubleTable.Table Nat) "a" = .ok 7) := by
  have hrun := LazyDoubleTable.runOps_rep [.set "a" 1]
    (LazyDoubleTable.initial Nat) (fun _ => none) _
    (LazyDoubleTable.rep_initial Nat) (LazyDoubleTable.good_initial Nat) (by rfl)
  exact ⟨(c4_round_trip (V := Nat)).1 [.set "a" 1] _ "a" 1 (by rfl) (by rfl),
    (c4_round_trip (V := Nat)).2 _ _ "a" 1 7 _ hrun.1 hrun.2 (by rfl) (by rfl)⟩

/-- C5 (counterexample): `allTombOps` is a legal trace from a fresh table
(every operation succeeds) that ends by deleting `"e"`, leaving all five
slots tombstones; inserting the different key `"f"`, whose very first
probe position (slot 2) is a tombstone, then raises
`RuntimeError("Table is full")` — contradicting the claim that such an
insert never fails. -/
theorem c5_counterexample :
    LazyDoubleTable.runOps (LazyDoubleTable.initial Nat) LazyDoubleTable.allTombOps =
      .ok LazyDoubleTable.allTombTab ∧
    LazyDoubleTable.allTombOps.getLast? = some (.del "e") ∧
    LazyDoubleTable.probePos LazyDoubleTable.allTombTab "f" 0 = 2 ∧
    LazyDoubleTable.allTombTab.array.getD 2 LazyDoubleTable.Slot.empty =
      LazyDoubleTable.Slot.deleted ∧
    LazyDoubleTable.setItem LazyDoubleTable.allTombTab "f" 6 = .error .tableFull :=
  ⟨rfl, rfl, rfl, rfl, rfl⟩

/-- C5 (amended): operations preserve the at-most-one-live-slot-per-key
invariant, and after deleting `k1` a successful insert of a different
absent key `k2` does not resurrect `k1`: `get k1` still fails with
`KeyError`, `get k2` returns the new value, the count equals the number of
live slots, and keys remain unique.  (The insert itself can fail with
`RuntimeError("Table is full")` when no slot is empty, as the
counterexample shows, so success is a hypothesis.) -/
theorem c5_tombstone_no_resurrection {V : Type} (t : LazyDoubleTable.Table V)
    (m : String → Option V) (k1 k2 : String) (v1 v2 : V)
    (t1 t2 : LazyDoubleTable.Table V)
    (hRep : LazyDoubleTable.Rep t m) (hGood : LazyDoubleTable.Good t)
    (h1 : m k1 = some v1) (hdel : LazyDoubleTable.delItem t k1 = .ok t1)
    (hk : k2 ≠ k1) (h2 : m k2 = none)
    (hset : LazyDoubleTable.setItem t1 k2 v2 = .ok t2) :
    LazyDoubleTable.getItem t2 k1 = .error .keyNotFound ∧
    LazyDoubleTable.getItem t2 k2 = .ok v2 ∧
    t2.length = LazyDoubleTable.occCount t2.array ∧
    (∀ i j q, LazyDoubleTable.slotKey (t2.array.getD i LazyDoubleTable.Slot.empty) = some q →
      LazyDoubleTable.slotKey (t2.array.getD j LazyDoubleTable.Slot.empty) = some q → i = j) := by
  obtain ⟨i, hi, hdel2⟩ := LazyDoubleTable.delItem_present hRep h1
  rw [hdel2] at hdel
  injection hdel with hdel
  have hRep1 := LazyDoubleTable.rep_delete hRep hi
  have hGood1 := LazyDoubleTable.good_delete hGood i
  rw [hdel] at hRep1 hGood1
  obtain ⟨hRep2, _, _, _, _, _⟩ := LazyDoubleTable.setItem_spec hRep1 hGood1 hset
  refine ⟨?_, ?_, hRep2.inv.lenEq, hRep2.inv.uniq⟩
  · refine LazyDoubleTable.getItem_absent hRep2 ?_
    rw [if_neg (fun hc => hk hc.symm), if_pos rfl]
  · exact LazyDoubleTable.getItem_present hRep2 (by rw [if_pos rfl])

/-- C5 (witness): after `set "a" 1; set "b" 2`, delete `"a"` and insert the
new key `"c"`: `"a"` stays deleted, `"c"` is stored, and the count matches
the two live slots. -/
theorem c5_witness :
    LazyDoubleTable.getItem
      (⟨LazyDoubleTable.TABLE_SIZES, 0,
        [LazyDoubleTable.Slot.empty, LazyDoubleTable.Slot.empty,
         LazyDoubleTable.Slot.deleted, LazyDoubleTable.Slot.occupied "b" 2,
         LazyDoubleTable.Slot.occupied "c" 3], 2⟩ : LazyDoubleTable.Table Nat) "a" =
      .error .keyNotFound ∧
    LazyDoubleTable.getItem
      (⟨LazyDoubleTable.TABLE_SIZES, 0,
        [LazyDoubleTable.Slot.empty, LazyDoubleTable.Slot.empty,
         LazyDoubleTable.Slot.deleted, LazyDoubleTable.Slot.occupied "b" 2,
         LazyDoubleTable.Slot.occupied "c" 3], 2⟩ : LazyDoubleTable.Table Nat) "c" =
      .ok 3 := by
  have hrun := LazyDoubleTable.runOps_rep [.set "a" 1, .set "b" 2]
    (LazyDoubleTable.initial Nat) (fun _ => none) LazyDoubleTable.twoEntryTab
    (LazyDoubleTable.rep_initial Nat) (LazyDoubleTable.good_initial Nat) (by rfl)
  have h := c5_tombstone_no_resurrection LazyDoubleTable.twoEntryTab _ "a" "c" 1 3
    LazyDoubleTable.oneTombTab _ hrun.1 hrun.2 (by rfl) (by rfl)
    (by decide) (by rfl) (by rfl)
  exact ⟨h.1, h.2.1⟩

namespace LazyDoubleTable

theorem coprime_step_inj (c s : Nat) (hg : Nat.gcd s c = 1) (start : Nat)
    {i j : Nat} (hi : i < c) (hj : j < c)
    (h : (start + i * s) % c = (start + j * s) % c) : i = j := by
  have hmod : (start + i * s) ≡ (start + j * s) [MOD c] := h
  have hmul : i * s ≡ j * s [MOD c] := Nat.ModEq.add_left_cancel' _ hmod
  have hg2 : Nat.gcd c s = 1 := by
    rw [Nat.gcd_comm]
    exact hg
  have hij : i ≡ j [MOD c] := Nat.ModEq.cancel_right_of_coprime hg2 hmul
  exact hij.eq_of_lt_of_lt hi hj

end LazyDoubleTable

/-- C6 (confirmed): for every capacity `c` in the `TABLE_SIZES` sequence
and every key, `hash2` returns a step in `[1, c)` coprime with `c`, and
therefore the probe positions `(start + i * step) % c` for
`i = 0, …, c - 1` are pairwise distinct: the probe sequence visits every
slot exactly once before repeating. -/
theorem c6_hash2_coprime_full_cycle (c : Nat)
    (hc : c ∈ LazyDoubleTable.TABLE_SIZES) (key : String) :
    1 ≤ LazyDoubleTable.hash2 c key ∧ LazyDoubleTable.hash2 c key < c ∧
    Nat.gcd (LazyDoubleTable.hash2 c key) c = 1 ∧
    ∀ start i j, i < c → j < c →
      (start + i * LazyDoubleTable.hash2 c key) % c =
        (start + j * LazyDoubleTable.hash2 c key) % c → i = j := by
  have hc2 : 2 ≤ c := by
    have hall : ∀ s ∈ LazyDoubleTable.TABLE_SIZES, 2 ≤ s := by decide
    exact hall c hc
  obtain ⟨hg, h1, hlt⟩ := LazyDoubleTable.hash2_spec c hc2 key
  exact ⟨h1, hlt, hg, fun start i j hi hj h =>
    LazyDoubleTable.coprime_step_inj c (LazyDoubleTable.hash2 c key) hg start hi hj h⟩

/-- C6 (witness): the theorem applied to capacity 5, the first table size,
and the key `"a"`. -/
theorem c6_witness :
    1 ≤ LazyDoubleTable.hash2 5 "a" ∧ LazyDoubleTable.hash2 5 "a" < 5 ∧
    Nat.gcd (LazyDoubleTable.hash2 5 "a") 5 = 1 ∧
    ∀ start i j, i < 5 → j < 5 →
      (start + i * LazyDoubleTable.hash2 5 "a") % 5 =
        (start + j * LazyDoubleTable.hash2 5 "a") % 5 → i = j :=
  c6_hash2_coprime_full_cycle 5 (by decide) "a"

/-- C7 (confirmed): for every valid 10-character date key in either family
of formats (`YYYY-MM-DD` / `YYYY/MM/DD`, detected by the separator at
offset 4, and `DD-MM-YYYY` / `DD/MM/YYYY` otherwise),
`HashyDateTable.hash` returns exactly the spec formula
`((day_of_year - 1) * c + (year mod c)) mod capacity` with
`c = capacity / 366` and the 1-based day-of-year computed under the
400/100/4 leap rule; and at the initial capacity 366,
`hash "2024-01-01" = 0` and `hash "2024-12-31" = 365` differ and lie in
`[0, 366)`, and the leap-day key `"2024-02-29"` hashes to 59 without
raising. -/
theorem c7_date_hash_formula :
    (∀ (cap : Nat), 366 ≤ cap → ∀ (key : String)
      (c0 c1 c2 c3 c4 c5 c6 c7 c8 c9 : Char) (y m d : Nat),
      key.data = [c0, c1, c2, c3, c4, c5, c6, c7, c8, c9] →
      (c4 = '-' ∨ c4 = '/') →
      c0.isDigit = true → c1.isDigit = true → c2.isDigit = true →
      c3.isDigit = true → c5.isDigit = true → c6.isDigit = true →
      c8.isDigit = true → c9.isDigit = true →
      y = 1000 * (c0.toNat - 48) + 100 * (c1.toNat - 48) + 10 * (c2.toNat - 48) +
        (c3.toNat - 48) →
      m = 10 * (c5.toNat - 48) + (c6.toNat - 48) →
      d = 10 * (c8.toNat - 48) + (c9.toNat - 48) →
      1 ≤ m → m ≤ 12 →
      HashyDateTable.hash cap key = .ok (HashyDateTable.spec_date_hash cap y m d)) ∧
    (∀ (cap : Nat), 366 ≤ cap → ∀ (key : String)
      (c0 c1 c2 c3 c4 c5 c6 c7 c8 c9 : Char) (y m d : Nat),
      key.data = [c0, c1, c2, c3, c4, c5, c6, c7, c8, c9] →
      ¬(c4 = '-' ∨ c4 = '/') →
      c0.isDigit = true → c1.isDigit = true → c3.isDigit = true →
      c4.isDigit = true → c6.isDigit = true → c7.isDigit = true →
      c8.isDigit = true → c9.isDigit = true →
      y = 1000 * (c6.toNat - 48) + 100 * (c7.toNat - 48) + 10 * (c8.toNat - 48) +
        (c9.toNat - 48) →
      m = 10 * (c3.toNat - 48) + (c4.toNat - 48) →
      d = 10 * (c0.toNat - 48) + (c1.toNat - 48) →
      1 ≤ m → m ≤ 12 →
      HashyDateTable.hash cap key = .ok (HashyDateTable.spec_date_hash cap y m d)) ∧
    HashyDateTable.hash 366 "2024-01-01" = .ok 0 ∧
    HashyDateTable.hash 366 "2024-12-31" = .ok 365 ∧
    (0 : Int) ≠ 365 ∧ (0 : Int) < 366 ∧ (365 : Int) < 366 ∧
    HashyDateTable.hash 366 "2024-02-29" = .ok 59 := by
  refine ⟨?_, ?_, rfl, rfl, by decide, by decide, by decide, rfl⟩
  · intro cap hcap key c0 c1 c2 c3 c4 c5 c6 c7 c8 c9 y m d hdata hsep
      h0 h1 h2 h3 h5 h6 h8 h9 hy hm hd hm1 hm12
    exact HashyDateTable.hash_formatA cap hcap key c0 c1 c2 c3 c4 c5 c6 c7 c8 c9
      y m d hdata hsep h0 h1 h2 h3 h5 h6 h8 h9 hy hm hd hm1 hm12
  · intro cap hcap key c0 c1 c2 c3 c4 c5 c6 c7 c8 c9 y m d hdata hsep
      h0 h1 h3 h4 h6 h7 h8 h9 hy hm hd hm1 hm12
    exact HashyDateTable.hash_formatB cap hcap key c0 c1 c2 c3 c4 c5 c6 c7 c8 c9
      y m d hdata hsep h0 h1 h3 h4 h6 h7 h8 h9 hy hm hd hm1 hm12

/-- C7 (witness): the formula instantiated at both format families:
`"2024-01-01"` (sep format) and `"23/05/2024"` (day-first format). -/
theorem c7_witness :
    HashyDateTable.hash 366 "2024-01-01" =
      .ok (HashyDateTable.spec_date_hash 366 2024 1 1) ∧
    HashyDateTable.hash 366 "23/05/2024" =
      .ok (HashyDateTable.spec_date_hash 366 2024 5 23) :=
  ⟨c7_date_hash_formula.1 366 (by decide) "2024-01-01"
      '2' '0' '2' '4' '-' '0' '1' '-' '0' '1' 2024 1 1 rfl (Or.inl rfl)
      (by decide) (by decide) (by decide) (by decide) (by decide) (by decide)
      (by decide) (by decide) (by decide) (by decide) (by decide)
      (by decide) (by decide),
    c7_date_hash_formula.2.1 366 (by decide) "23/05/2024"
      '2' '3' '/' '0' '5' '/' '2' '0' '2' '4' 2024 5 23 rfl (by decide)
      (by decide) (by decide) (by decide) (by decide) (by decide) (by decide)
      (by decide) (by decide) (by decide) (by decide) (by decide)
      (by decide) (by decide)⟩

/-- C8 (counterexample): the 11-character key `"2024-01-01X"` has length
different from 10, yet `HashyDateTable.hash` silently returns the hash 0
(the slices ignore the trailing character) instead of failing fast. -/
theorem c8_counterexample :
    "2024-01-01X".length = 11 ∧
    HashyDateTable.hash 366 "2024-01-01X" = .ok 0 :=
  ⟨rfl, rfl⟩

/-- C8 (amended): `HashyDateTable.hash` does fail fast on every key of
length at most 6 (the `key[4]` subscript or one of the `int(...)` calls
raises), but not on every key of length ≠ 10: keys of length 7, 9 or 11
can silently hash, as the counterexample shows. -/
theorem c8_short_keys_fail (cap : Nat) (key : String) (h : key.length ≤ 6) :
    ∃ e, HashyDateTable.hash cap key = .error e :=
  HashyDateTable.hash_short_key_fails cap key h

/-- C8 (witness): the amended theorem applied to the 3-character key
`"abc"`. -/
theorem c8_witness :
    "abc".length ≤ 6 ∧ ∃ e, HashyDateTable.hash 366 "abc" = .error e :=
  ⟨by decide, c8_short_keys_fail 366 "abc" (by decide)⟩

/-- C9 (confirmed): at construction the length is 0 with no occupied slot,
and after any sequence of `set`/`delete` operations that completes without
raising (which includes every internal rehash triggered by `set`), `len()`
equals the number of occupied slots of the array — tombstones and empty
slots are never counted.  `get` and `contains` do not mutate the state at
all (see C10), so they trivially preserve the equality. -/
theorem c9_length_counts_occupied {V : Type} :
    (LazyDoubleTable.initial V).length =
      LazyDoubleTable.occCount (LazyDoubleTable.initial V).array ∧
    ∀ (ops : List (LazyDoubleTable.Op V)) (t1 : LazyDoubleTable.Table V),
      LazyDoubleTable.runOps (LazyDoubleTable.initial V) ops = .ok t1 →
      t1.length = LazyDoubleTable.occCount t1.array := by
  constructor
  · rfl
  · intro ops t1 h
    exact ((LazyDoubleTable.runOps_rep ops (LazyDoubleTable.initial V)
      (fun _ => none) t1 (LazyDoubleTable.rep_initial V)
      (LazyDoubleTable.good_initial V) h).1).inv.lenEq

/-- C9 (witness): the trace `set "a" 1; set "b" 2; del "a"` leaves length 1
and exactly one occupied slot. -/
theorem c9_witness :
    LazyDoubleTable.oneTombTab.length =
      LazyDoubleTable.occCount LazyDoubleTable.oneTombTab.array :=
  (c9_length_counts_occupied (V := Nat)).2 [.set "a" 1, .set "b" 2, .del "a"]
    LazyDoubleTable.oneTombTab (by rfl)

/-- C10 (confirmed): `get` and `contains` are pure readers — their
state-passing forms return the input table unchanged for every key; a
failing `delete` fails only with `KeyError` and returns the table
unchanged, because the tombstone write and the count decrement come after
the probe; and under the representation invariant `delete` fails with
`KeyError` exactly on absent keys. -/
theorem c10_reads_pure_delete_safe {V : Type} (t : LazyDoubleTable.Table V)
    (k : String) :
    (LazyDoubleTable.getItemSt t k).1 = t ∧
    (LazyDoubleTable.containsKeySt t k).1 = t ∧
    (∀ e, (LazyDoubleTable.delItemSt t k).2 = .error e →
      (LazyDoubleTable.delItemSt t k).1 = t ∧ e = .keyNotFound) ∧
    (∀ m, LazyDoubleTable.Rep t m →
      ((LazyDoubleTable.delItemSt t k).2 = .error .keyNotFound ↔ m k = none)) := by
  refine ⟨rfl, rfl, ?_, ?_⟩
  · intro e he
    unfold LazyDoubleTable.delItemSt at he ⊢
    cases hp : LazyDoubleTable.hashyProbe t k false with
    | error e2 =>
      rw [hp] at he
      simp at he ⊢
      subst he
      exact LazyDoubleTable.probe_lookup_error_top t k _ hp
    | ok pos =>
      rw [hp] at he
      simp at he
  · intro m hRep
    unfold LazyDoubleTable.delItemSt
    cases hmk : m k with
    | none =>
      rw [LazyDoubleTable.probe_absent_lookup hRep hmk]
      simp
    | some w =>
      obtain ⟨i, hp, _⟩ := LazyDoubleTable.probe_present hRep hmk false
      rw [hp]
      simp

/-- C10 (witness): the theorem applied to the fresh table and the absent
key `"a"`: reads return the state unchanged, and the failing delete
reports `KeyError` with the state intact. -/
theorem c10_witness :
    (LazyDoubleTable.getItemSt (LazyDoubleTable.initial Nat) "a").1 =
      LazyDoubleTable.initial Nat ∧
    ((LazyDoubleTable.delItemSt (LazyDoubleTable.initial Nat) "a").1 =
      LazyDoubleTable.initial Nat ∧
      LazyDoubleTable.Err.keyNotFound = .keyNotFound) ∧
    ((LazyDoubleTable.delItemSt (LazyDoubleTable.initial Nat) "a").2 =
      .error .keyNotFound ↔ (fun _ => (none : Option Nat)) "a" = none) :=
  ⟨(c10_reads_pure_delete_safe (LazyDoubleTable.initial Nat) "a").1,
    (c10_reads_pure_delete_safe (LazyDoubleTable.initial Nat) "a").2.2.1
      .keyNotFound (by rfl),
    (c10_reads_pure_delete_safe (LazyDoubleTable.initial Nat) "a").2.2.2 _
      (LazyDoubleTable.rep_initial Nat)⟩
